import Mathlib

/-!
Verification of the chunk-extraction-and-merge pipeline of the KG-extraction
repository, as a shallow embedding in Lean 4.

Python strings are modelled as `List Char`; the string operations used by the
code (`str.split()`, `str.strip()`, `str.lower()`, `' '.join(...)`) are given
executable models below (`pysplit`, `pystrip`, `pylower`, `joinWords`) that
mirror CPython behaviour on ASCII text.  Parsed JSON values are modelled by the
inductive `Json`.  Python code that can raise is embedded in `Except String`.
-/

namespace KG

/-- Python whitespace (the ASCII characters recognised by `str.split()` and
`str.strip()`): space, tab, newline, carriage return, vertical tab, form feed. -/
def pyIsSpace (c : Char) : Bool :=
  c.toNat = 32 || c.toNat = 9 || c.toNat = 10 || c.toNat = 13 || c.toNat = 11 || c.toNat = 12

/-- Worker for `pysplit`: `acc` holds the current (reversed) in-progress word. -/
def pysplitGo : List Char → List Char → List (List Char)
  | [], acc => if acc.isEmpty then [] else [acc.reverse]
  | c :: cs, acc =>
    if pyIsSpace c then
      if acc.isEmpty then pysplitGo cs [] else acc.reverse :: pysplitGo cs []
    else pysplitGo cs (c :: acc)

/-- Python `s.split()` (no separator argument): split on runs of whitespace,
discarding empty words. -/
def pysplit (s : List Char) : List (List Char) := pysplitGo s []

/-- Python `s.strip()`: remove leading and trailing whitespace. -/
def pystrip (s : List Char) : List Char :=
  (s.dropWhile pyIsSpace).rdropWhile pyIsSpace

/-- Python `c.lower()` for a single ASCII character. -/
def pyToLower (c : Char) : Char :=
  if 65 ≤ c.toNat ∧ c.toNat ≤ 90 then Char.ofNat (c.toNat + 32) else c

/-- Python `s.lower()` (ASCII). -/
def pylower (s : List Char) : List Char := s.map pyToLower

/-- Python `' '.join(words)`. -/
def joinWords : List (List Char) → List Char
  | [] => []
  | [w] => w
  | w :: x :: ws => w ++ ' ' :: joinWords (x :: ws)

/-- Python `' '.join(s.split())`: collapse internal whitespace. -/
def pycollapse (s : List Char) : List Char := joinWords (pysplit s)

/-- A chunk produced by `TextProcessor.split_into_chunks`:
`{"text": ..., "chunk_number": ...}`. -/
structure Chunk where
  text : List Char
  chunk_number : Nat
deriving DecidableEq

/-- The `while start_index < total_words` loop of
`TextProcessor.split_into_chunks` (text_processor.py lines 84-106), with an
explicit structural fuel.  The loop body appends one chunk per iteration and
the safety break (`chunk_number > total_words`) bounds the number of
iterations by `total_words`, so `split_into_chunks` below passes fuel
`total_words + 1`, which is never exhausted. -/
def splitLoop (S O : Nat) (words : List (List Char)) : Nat → Nat → Nat → List Chunk
  | 0, _, _ => []
  | fuel + 1, start_index, chunk_number =>
    if start_index < words.length then
      let end_index := min (start_index + S) words.length
      let chunk : Chunk :=
        ⟨joinWords ((words.drop start_index).take (end_index - start_index)), chunk_number⟩
      let next_start_index := start_index + S - O
      if next_start_index ≤ start_index then
        if end_index = words.length then [chunk]
        else if chunk_number + 1 > words.length then [chunk]
        else chunk :: splitLoop S O words fuel (start_index + 1) (chunk_number + 1)
      else if chunk_number + 1 > words.length then [chunk]
      else chunk :: splitLoop S O words fuel next_start_index (chunk_number + 1)
    else []

/-- `TextProcessor.split_into_chunks(text)` with `chunk_size = S`,
`overlap = O` (text_processor.py lines 68-108). -/
def split_into_chunks (S O : Nat) (text : List Char) : List Chunk :=
  let words := pysplit text
  splitLoop S O words (words.length + 1) 0 1

/-- Parsed JSON values (the result of Python `json.loads`). -/
inductive Json where
  | str (s : List Char)
  | num (n : Int)
  | boolean (b : Bool)
  | null
  | arr (elems : List Json)
  | obj (fields : List (String × Json))

/-- The keys of a Python dict (insertion order). -/
def jKeys (kvs : List (String × Json)) : List String := kvs.map (·.1)

/-- Python `d.get(k)`: value of the key, if present. -/
def jGet (kvs : List (String × Json)) (k : String) : Option Json :=
  (kvs.find? (fun p => p.1 == k)).map (·.2)

/-- Python `d[k] = v`: update in place if the key exists, else append. -/
def dictSet (kvs : List (String × Json)) (k : String) (v : Json) : List (String × Json) :=
  if kvs.any (fun p => p.1 == k) then
    kvs.map (fun p => if p.1 == k then (k, v) else p)
  else kvs ++ [(k, v)]

/-- Python `pat in s` for strings (substring test). -/
def isSubstr : List Char → List Char → Bool
  | pat, [] => pat.isPrefixOf []
  | pat, c :: cs => pat.isPrefixOf (c :: cs) || isSubstr pat cs

/-- Python `s in xs` where `xs` is a list and `s` a string: `==` against each
element; a string compares equal only to an equal string. -/
def jarrHasStr (xs : List Json) (s : List Char) : Bool :=
  xs.any (fun j => match j with | .str t => t == s | _ => false)

/-- A normalized triple, the output dict of `TextProcessor.normalize_triple`:
`{"subject": ..., "predicate": ..., "object": ..., "source_chunk": ...}`. -/
structure NormTriple where
  subject : List Char
  predicate : List Char
  object : List Char
  source_chunk : Json

/-- The default provenance `'unknown'` used when the input dict has no
`'chunk'` key. -/
def unknownChunk : Json := .str ("unknown".toList)

/-- `TextProcessor.normalize_triple` (text_processor.py lines 110-138),
embedded over parsed JSON values.  Python exceptions are modelled as
`Except.error`: `TypeError` when `'subject' in triple` is applied to a
non-container, `AttributeError` when a field value is not a string (so that
`.strip()` fails), or when the membership checks succeed on a list or a
string, where `.get` then fails. -/
def normalize_triple (triple : Json) : Except String (Option NormTriple) :=
  match triple with
  | .obj kvs =>
    if "subject" ∈ jKeys kvs ∧ "predicate" ∈ jKeys kvs ∧ "object" ∈ jKeys kvs then do
      let s ← match (jGet kvs "subject").getD (.str []) with
              | .str s => pure s
              | _ => Except.error "AttributeError"
      let p ← match (jGet kvs "predicate").getD (.str []) with
              | .str p => pure p
              | _ => Except.error "AttributeError"
      let o ← match (jGet kvs "object").getD (.str []) with
              | .str o => pure o
              | _ => Except.error "AttributeError"
      let subject := pylower (pystrip s)
      let predicate := pycollapse (pylower (pystrip p))
      let object := pylower (pystrip o)
      if subject = [] ∨ predicate = [] ∨ object = [] then pure none
      else pure (some ⟨subject, predicate, object, (jGet kvs "chunk").getD unknownChunk⟩)
    else pure none
  | .arr xs =>
    if jarrHasStr xs ("subject".toList) ∧ jarrHasStr xs ("predicate".toList)
        ∧ jarrHasStr xs ("object".toList) then
      Except.error "AttributeError"
    else pure none
  | .str s =>
    if isSubstr ("subject".toList) s ∧ isSubstr ("predicate".toList) s
        ∧ isSubstr ("object".toList) s then
      Except.error "AttributeError"
    else pure none
  | _ => Except.error "TypeError"

/-- The dedup identity key: the normalized `(subject, predicate, object)`
tuple. -/
def tkey (n : NormTriple) : List Char × List Char × List Char :=
  (n.subject, n.predicate, n.object)

/-- The loop of `TextProcessor.deduplicate_triples` (text_processor.py lines
150-161), with the `seen_triples` set modelled as the list of keys added so
far. -/
def dedupGo (seen : List (List Char × List Char × List Char)) :
    List Json → Except String (List NormTriple)
  | [] => .ok []
  | t :: ts => do
    match ← normalize_triple t with
    | none => dedupGo seen ts
    | some n =>
      if tkey n ∈ seen then dedupGo seen ts
      else do
        let rest ← dedupGo (tkey n :: seen) ts
        pure (n :: rest)

/-- `TextProcessor.deduplicate_triples` (text_processor.py lines 140-161). -/
def deduplicate_triples (triples : List Json) : Except String (List NormTriple) :=
  dedupGo [] triples

/-- A normalized-triple output dict, viewed again as a Python dict (the value
fed to `deduplicate_triples` when it is applied to its own output): keys
`subject`, `predicate`, `object`, `source_chunk` — and no `chunk` key. -/
def normOut (n : NormTriple) : Json :=
  .obj [("subject", .str n.subject), ("predicate", .str n.predicate),
        ("object", .str n.object), ("source_chunk", n.source_chunk)]

/-- A normalized triple with its provenance replaced by the default
`'unknown'`. -/
def resetChunk (n : NormTriple) : NormTriple :=
  ⟨n.subject, n.predicate, n.object, unknownChunk⟩

/-- Sequential normalization of a triple list (the order in which
`deduplicate_triples` evaluates `normalize_triple`), collecting the valid
results and propagating the first exception. -/
def normAll : List Json → Except String (List NormTriple)
  | [] => .ok []
  | t :: ts => do
    let r ← normalize_triple t
    let rest ← normAll ts
    match r with
    | none => pure rest
    | some n => pure (n :: rest)

/-- Reference function, from the spec wording: keep, in input order, exactly
the first occurrence of each `(subject, predicate, object)` key. -/
def firstOccurAux (seen : List (List Char × List Char × List Char)) :
    List NormTriple → List NormTriple
  | [] => []
  | n :: ns =>
    if tkey n ∈ seen then firstOccurAux seen ns
    else n :: firstOccurAux (tkey n :: seen) ns

/-- Reference first-occurrence filter (spec wording: "keeping first-seen
provenance ... and discarding later duplicates entirely"). -/
def firstOccurSpec (ns : List NormTriple) : List NormTriple := firstOccurAux [] ns

/-- The per-item shape test of `TripleExtractor.validate_data`
(triple_extractor.py lines 128-143): a dict with string `subject`,
`predicate`, `object`, each non-empty after `.strip()`. -/
def validItem (t : Json) : Bool :=
  match t with
  | .obj kvs =>
    ("subject" ∈ jKeys kvs && "predicate" ∈ jKeys kvs && "object" ∈ jKeys kvs) &&
    (match jGet kvs "subject", jGet kvs "predicate", jGet kvs "object" with
     | some (.str a), some (.str b), some (.str c) =>
       !(pystrip a).isEmpty && !(pystrip b).isEmpty && !(pystrip c).isEmpty
     | _, _, _ => false)
  | _ => false

/-- `TripleExtractor.validate_data` (triple_extractor.py lines 115-145); the
`isinstance(data, list)` test holds by typing here. -/
def validate_data (data : List Json) : Bool := data.all validItem

/-- A member of a `failed_chunks` list: `{"chunk_number": ..., "error": ...}`;
the synthetic merge-failure record has no `chunk_number` key (`none`). -/
structure FailedChunk where
  chunk_number : Option Int
  error : String
deriving DecidableEq

/-- The `statistics` dict of `TripleExtractor.process_results`. -/
structure TripleStats where
  total_chunks : Nat
  processed_chunks : Nat
  failed_chunks : Nat
  total_triples : Nat
  unique_triples : Nat
  duplicates_removed : Int
deriving DecidableEq

/-- The result dict of `TripleExtractor.process_results`. -/
structure TripleResult where
  triples : List NormTriple
  statistics : TripleStats
  failed_chunks : List FailedChunk

/-- `TripleExtractor.process_results` (triple_extractor.py lines 62-113): the
`try` block flattens, deduplicates and reports statistics; any exception is
caught and converted into the empty result with a synthetic failed-chunk
entry. -/
def process_results (all_extracted_data : List (List Json))
    (failed_chunks : List FailedChunk) : TripleResult :=
  let all_triples := all_extracted_data.flatten
  match deduplicate_triples all_triples with
  | .ok normalized =>
    { triples := normalized
      statistics :=
        { total_chunks := all_extracted_data.length + failed_chunks.length
          processed_chunks := all_extracted_data.length
          failed_chunks := failed_chunks.length
          total_triples := all_triples.length
          unique_triples := normalized.length
          duplicates_removed := (all_triples.length : Int) - (normalized.length : Int) }
      failed_chunks := failed_chunks }
  | .error e =>
    { triples := []
      statistics :=
        { total_chunks := all_extracted_data.length + failed_chunks.length
          processed_chunks := 0
          failed_chunks := all_extracted_data.length + failed_chunks.length
          total_triples := 0
          unique_triples := 0
          duplicates_removed := 0 }
      failed_chunks := failed_chunks ++ [⟨none, "Processing error: " ++ e⟩] }

/-- The per-item filter of `TripleResponseParser.parse` (response_parsers.py
lines 64-69): keep an item iff it is a dict with string `subject`, `predicate`
and `object`, tagging it with the chunk number (`item['chunk'] =
chunk_number`). -/
def keepItem (chunk_number : Int) (item : Json) : Option Json :=
  match item with
  | .obj kvs =>
    if "subject" ∈ jKeys kvs ∧ "predicate" ∈ jKeys kvs ∧ "object" ∈ jKeys kvs then
      match jGet kvs "subject", jGet kvs "predicate", jGet kvs "object" with
      | some (.str _), some (.str _), some (.str _) =>
        some (.obj (dictSet kvs "chunk" (.num chunk_number)))
      | _, _, _ => none
    else none
  | _ => none

/-- The top-level unwrapping of `TripleResponseParser.parse`
(response_parsers.py lines 46-61): accept a list as is, a single-triple dict
as a one-element list, or a dict containing exactly one list value; reject
anything else. -/
def topStructure (parsed : Json) : Except String (List Json) :=
  match parsed with
  | .obj kvs =>
    if "subject" ∈ jKeys kvs ∧ "predicate" ∈ jKeys kvs ∧ "object" ∈ jKeys kvs then
      .ok [.obj kvs]
    else
      match kvs.filterMap (fun p => match p.2 with | .arr xs => some xs | _ => none) with
      | [lv] => .ok lv
      | _ => .error "JSON object received, but does not contain a single list of triples"
  | .arr xs => .ok xs
  | _ => .error "Parsed JSON is not a list or expected dictionary wrapper"

/-- `TripleResponseParser.parse` / the triples branch of
`AnthropicClient.extract_triples`, after `json.loads` has produced `parsed`
(response_parsers.py lines 44-72): unwrap the top-level structure via
`topStructure`, keep exactly the candidate items accepted by `keepItem`, and
fail only when the top-level structure is rejected. -/
def parseTriples (parsed : Json) (chunk_number : Int) :
    Bool × List Json × Option String :=
  match topStructure parsed with
  | .error e => (false, [], some e)
  | .ok plist => (true, plist.filterMap (keepItem chunk_number), none)

/-- `TripleExtractor.extract_from_chunk` (triple_extractor.py lines 26-60),
given the client call result `(success, data, error)`: on client success the
batch is accepted iff `validate_data` passes; on client failure the error is
passed through. -/
def extract_from_chunk (client : Bool × List Json × Option String) :
    Bool × List Json × Option String :=
  match client with
  | (true, data, _) =>
    if validate_data data then (true, data, none)
    else (false, [], some "Invalid triple data")
  | (false, _, error) => (false, [], error)

/-- Predicate on a parsed response: the top-level structure is acceptable to
the parser (a list, a single-triple dict, or a dict wrapping exactly one
list).  Derived from the branch structure of `TripleResponseParser.parse`. -/
def structureOk (parsed : Json) : Bool :=
  match parsed with
  | .obj kvs =>
    ("subject" ∈ jKeys kvs && "predicate" ∈ jKeys kvs && "object" ∈ jKeys kvs) ||
    (match kvs.filterMap (fun p => match p.2 with | .arr xs => some xs | _ => none) with
     | [_] => true
     | _ => false)
  | .arr _ => true
  | _ => false

/-- The non-emptiness part of the `validate_data` check for one item: all
three fields are non-empty after `.strip()` (defined only for dicts with
string fields, `false` otherwise). -/
def hasNonemptyFields (t : Json) : Bool :=
  match t with
  | .obj kvs =>
    match jGet kvs "subject", jGet kvs "predicate", jGet kvs "object" with
    | some (.str a), some (.str b), some (.str c) =>
      !(pystrip a).isEmpty && !(pystrip b).isEmpty && !(pystrip c).isEmpty
    | _, _, _ => false
  | _ => false

/-- The shape part of the `validate_data` check for one item: a dict whose
`subject`, `predicate`, `object` values are all present and strings. -/
def isTripleShaped (t : Json) : Bool :=
  match t with
  | .obj kvs =>
    ("subject" ∈ jKeys kvs && "predicate" ∈ jKeys kvs && "object" ∈ jKeys kvs) &&
    (match jGet kvs "subject", jGet kvs "predicate", jGet kvs "object" with
     | some (.str _), some (.str _), some (.str _) => true
     | _, _, _ => false)
  | _ => false

/-- A JSON-LD document as seen by `JSONLDExtractor`: the value of its
`@context` key (if present), the value of its `@graph` key (if present), and
the remaining content, all abstract. -/
structure JDoc (C G R : Type) where
  context : Option C
  graph : Option G
  rest : R
deriving DecidableEq

/-- The `data` argument of `JSONLDExtractor._process_extracted_data`:
a dict, a string (to be JSON-parsed), or anything else. -/
inductive LLMData (C G R : Type) where
  | dict (d : JDoc C G R)
  | str (s : List Char)
  | other

/-- Outcome of `json.loads` on a string response: a dict, some other JSON
value, or a decode error. -/
inductive ParsedStr (C G R : Type) where
  | okDict (d : JDoc C G R)
  | okOther
  | decodeErr

/-- `JSONLDExtractor._fix_llm_context` (jsonld_extractor.py lines 97-116):
replace any LLM-supplied `@context` with the ontology context. -/
def fix_llm_context (ontologyContext : C) (d : JDoc C G R) : JDoc C G R :=
  { d with context := some ontologyContext }

/-- The shared branch body of `_process_extracted_data` for a dict that
contains `@graph` (jsonld_extractor.py lines 142-151 and 152-164 run the same
code), instrumented: besides the processed result it returns the list of
arguments passed to `_validate_jsonld` and to `_normalize_jsonld`.  Fix the
context, validate, then normalize. -/
def processDoc (ontologyContext : C) (validate : JDoc C G R → Bool)
    (normalize : JDoc C G R → Option (JDoc C G R)) (d : JDoc C G R) :
    Option (JDoc C G R) × List (JDoc C G R) × List (JDoc C G R) :=
  let fixed := fix_llm_context ontologyContext d
  if validate fixed then
    match normalize fixed with
    | some n => (some n, [fixed], [fixed])
    | none => (none, [fixed], [fixed])
  else (none, [fixed], [])

/-- `JSONLDExtractor._process_extracted_data` (jsonld_extractor.py lines
118-173), instrumented as in `processDoc`.  `validate` and `normalize`
abstract the (configuration-gated) ontology validation and normalization
collaborators; `parse` abstracts `json.loads` on string responses. -/
def process_extracted_data (ontologyContext : C)
    (validate : JDoc C G R → Bool) (normalize : JDoc C G R → Option (JDoc C G R))
    (parse : List Char → ParsedStr C G R) (data : LLMData C G R) :
    Option (JDoc C G R) × List (JDoc C G R) × List (JDoc C G R) :=
  match data with
  | .dict d =>
    if d.graph.isSome then processDoc ontologyContext validate normalize d
    else (none, [], [])
  | .str s =>
    match parse s with
    | .okDict d =>
      if d.graph.isSome then processDoc ontologyContext validate normalize d
      else (none, [], [])
    | _ => (none, [], [])
  | .other => (none, [], [])

/-- The `statistics` dict of `JSONLDExtractor.process_results`. -/
structure JsonldStats where
  total_chunks : Nat
  processed_chunks : Nat
  failed_chunks : Nat
  total_entities : Nat
  original_entities : Nat
  duplicates_removed : Int
deriving DecidableEq

/-- The result dict of `JSONLDExtractor.process_results`; `context` and the
entities of `@graph` are abstract. -/
structure JsonldResult (C E : Type) where
  context : C
  graph : List E
  statistics : JsonldStats
  failed_chunks : List FailedChunk

/-- `JSONLDExtractor.process_results` (jsonld_extractor.py lines 228-287):
concatenate the `@graph` of every per-chunk document under the ontology
context, round-trip the merged graph through RDF (`normalizeRDF`, abstract,
may raise), and report statistics; any exception is caught and converted into
the empty-graph result with a synthetic failed-chunk entry. -/
def process_results_jsonld (ontologyContext : C)
    (normalizeRDF : List E → Except String (List E))
    (all_extracted_data : List (JDoc C (List E) R))
    (failed_chunks : List FailedChunk) : JsonldResult C E :=
  let merged := (all_extracted_data.map (fun d => d.graph.getD [])).flatten
  match normalizeRDF merged with
  | .ok normalized =>
    { context := ontologyContext
      graph := normalized
      statistics :=
        { total_chunks := all_extracted_data.length + failed_chunks.length
          processed_chunks := all_extracted_data.length
          failed_chunks := failed_chunks.length
          total_entities := normalized.length
          original_entities := merged.length
          duplicates_removed := (merged.length : Int) - (normalized.length : Int) }
      failed_chunks := failed_chunks }
  | .error e =>
    { context := ontologyContext
      graph := []
      statistics :=
        { total_chunks := all_extracted_data.length + failed_chunks.length
          processed_chunks := 0
          failed_chunks := all_extracted_data.length + failed_chunks.length
          total_entities := 0
          original_entities := 0
          duplicates_removed := 0 }
      failed_chunks := failed_chunks ++ [⟨none, "Processing error: " ++ e⟩] }

/-- A word for each `i < 250`: its decimal digits. -/
def natWord (n : Nat) : List Char := Nat.toDigits 10 n

/-- 250 pairwise-distinct whitespace-free words. -/
def words250 : List (List Char) := (List.range 250).map natWord

/-- A concrete 250-word text (words separated by single spaces). -/
def text250 : List Char := joinWords words250

/-- The spec scenario triple `{" Marie  Curie ", "Discovered", "Radium"}`
(note the two internal spaces in the subject). -/
def marieTriple : Json :=
  .obj [("subject", .str " Marie  Curie ".toList),
        ("predicate", .str "Discovered".toList),
        ("object", .str "Radium".toList)]


/-! ## String-operation lemmas -/

-- 1. Char roundtrip
theorem toNat_ofNat_of_lt {n : Nat} (h : n < 55296) : (Char.ofNat n).toNat = n := by
  unfold Char.ofNat
  rw [dif_pos (Or.inl h)]
  rfl

-- 2. pyToLower facts
theorem pyIsSpace_pyToLower (c : Char) : pyIsSpace (pyToLower c) = pyIsSpace c := by
  unfold pyToLower
  by_cases h : 65 ≤ c.toNat ∧ c.toNat ≤ 90
  · rw [if_pos h]
    have h2 : (Char.ofNat (c.toNat + 32)).toNat = c.toNat + 32 :=
      toNat_ofNat_of_lt (by omega)
    have hL : pyIsSpace (Char.ofNat (c.toNat + 32)) = false := by
      unfold pyIsSpace
      rw [h2]
      simp only [Bool.or_eq_false_iff, decide_eq_false_iff_not]
      omega
    have hR : pyIsSpace c = false := by
      unfold pyIsSpace
      simp only [Bool.or_eq_false_iff, decide_eq_false_iff_not]
      omega
    rw [hL, hR]
  · rw [if_neg h]

theorem pyToLower_pyToLower (c : Char) : pyToLower (pyToLower c) = pyToLower c := by
  unfold pyToLower
  by_cases h : 65 ≤ c.toNat ∧ c.toNat ≤ 90
  · rw [if_pos h]
    have h2 : (Char.ofNat (c.toNat + 32)).toNat = c.toNat + 32 :=
      toNat_ofNat_of_lt (by omega)
    rw [if_neg (by omega)]
  · rw [if_neg h, if_neg h]



-- 3. strip lemmas
theorem dropWhile_rdropWhile_self {p : Char → Bool} {l : List Char}
    (h : l.dropWhile p = l) : (l.rdropWhile p).dropWhile p = l.rdropWhile p := by
  obtain ⟨t, ht⟩ := List.rdropWhile_prefix p l
  cases hr : l.rdropWhile p with
  | nil => rfl
  | cons c cs =>
    rw [List.dropWhile_cons]
    have hc : p c = false := by
      have : l = c :: (cs ++ t) := by rw [← ht, hr]; simp
      rw [this] at h
      rw [List.dropWhile_cons] at h
      by_cases hpc : p c = true
      · rw [if_pos hpc] at h
        have h1 := congrArg List.length h
        have h2 := (List.dropWhile_sublist (l := cs ++ t) (p := p)).length_le
        simp at h1 h2
        omega
      · simp at hpc; exact hpc
    rw [hc]
    simp

theorem pystrip_idem (l : List Char) : pystrip (pystrip l) = pystrip l := by
  unfold pystrip
  rw [dropWhile_rdropWhile_self (List.dropWhile_idempotent pyIsSpace l)]
  rw [List.rdropWhile_idempotent]



-- 4. strip/lower commute
theorem dropWhile_map_pyToLower (l : List Char) :
    (l.map pyToLower).dropWhile pyIsSpace = (l.dropWhile pyIsSpace).map pyToLower := by
  induction l with
  | nil => rfl
  | cons c cs ih =>
    simp only [List.map_cons, List.dropWhile_cons, pyIsSpace_pyToLower]
    by_cases h : pyIsSpace c = true
    · rw [if_pos h, if_pos h, ih]
    · simp at h
      rw [if_neg (by simp [h]), if_neg (by simp [h])]
      simp

theorem pystrip_pylower (l : List Char) :
    pystrip (pylower l) = pylower (pystrip l) := by
  unfold pystrip pylower List.rdropWhile
  rw [dropWhile_map_pyToLower]
  rw [← List.map_reverse, dropWhile_map_pyToLower, List.map_reverse]

theorem pylower_idem (l : List Char) : pylower (pylower l) = pylower l := by
  unfold pylower
  rw [List.map_map]
  apply List.map_congr_left
  intro c _
  exact pyToLower_pyToLower c



-- words produced by pysplit are nonempty and whitespace-free
theorem pysplitGo_words (s : List Char) :
    ∀ acc, (∀ c ∈ acc, pyIsSpace c = false) →
    ∀ w ∈ pysplitGo s acc, w ≠ [] ∧ ∀ c ∈ w, pyIsSpace c = false := by
  induction s with
  | nil =>
    intro acc hacc w hw
    unfold pysplitGo at hw
    by_cases h : acc.isEmpty
    · rw [if_pos h] at hw; simp at hw
    · rw [if_neg h] at hw
      simp at hw
      subst hw
      constructor
      · simp [List.isEmpty_iff] at h; simp [h]
      · intro c hc; exact hacc c (by simpa using hc)
  | cons c cs ih =>
    intro acc hacc w hw
    unfold pysplitGo at hw
    by_cases hsp : pyIsSpace c = true
    · rw [if_pos hsp] at hw
      by_cases h : acc.isEmpty
      · rw [if_pos h] at hw
        exact ih [] (by simp) w hw
      · rw [if_neg h] at hw
        simp only [List.mem_cons] at hw
        rcases hw with hw | hw
        · subst hw
          constructor
          · simp [List.isEmpty_iff] at h; simp [h]
          · intro x hx; exact hacc x (by simpa using hx)
        · exact ih [] (by simp) w hw
    · simp only [Bool.not_eq_true] at hsp
      rw [if_neg (by simp [hsp])] at hw
      refine ih (c :: acc) ?_ w hw
      intro x hx
      rcases List.mem_cons.mp hx with rfl | hx
      · exact hsp
      · exact hacc x hx

theorem pysplit_words (s : List Char) :
    ∀ w ∈ pysplit s, w ≠ [] ∧ ∀ c ∈ w, pyIsSpace c = false :=
  pysplitGo_words s [] (by simp)

-- characters of the words come from the input
theorem pysplitGo_chars (s : List Char) :
    ∀ acc, ∀ w ∈ pysplitGo s acc, ∀ c ∈ w, c ∈ acc ∨ c ∈ s := by
  induction s with
  | nil =>
    intro acc w hw c hc
    unfold pysplitGo at hw
    by_cases h : acc.isEmpty
    · rw [if_pos h] at hw; simp at hw
    · rw [if_neg h] at hw
      simp at hw
      subst hw
      left; simpa using hc
  | cons a as ih =>
    intro acc w hw c hc
    unfold pysplitGo at hw
    by_cases hsp : pyIsSpace a = true
    · rw [if_pos hsp] at hw
      by_cases h : acc.isEmpty
      · rw [if_pos h] at hw
        rcases ih [] w hw c hc with h' | h'
        · simp at h'
        · right; simp [h']
      · rw [if_neg h] at hw
        simp only [List.mem_cons] at hw
        rcases hw with hw | hw
        · subst hw; left; simpa using hc
        · rcases ih [] w hw c hc with h' | h'
          · simp at h'
          · right; simp [h']
    · rw [if_neg (by simp_all)] at hw
      rcases ih (a :: acc) w hw c hc with h' | h'
      · rcases List.mem_cons.mp h' with rfl | h''
        · right; simp
        · left; exact h''
      · right; simp [h']

theorem pysplitGo_nil (acc : List Char) :
    pysplitGo [] acc = if acc.isEmpty then [] else [acc.reverse] := rfl

theorem pysplitGo_cons (c : Char) (cs acc : List Char) :
    pysplitGo (c :: cs) acc =
      if pyIsSpace c then
        if acc.isEmpty then pysplitGo cs [] else acc.reverse :: pysplitGo cs []
      else pysplitGo cs (c :: acc) := rfl

-- splitting consumes a whitespace-free word wholesale
theorem pysplitGo_append (w : List Char) (hw : ∀ c ∈ w, pyIsSpace c = false) :
    ∀ s acc, pysplitGo (w ++ s) acc = pysplitGo s (w.reverse ++ acc) := by
  induction w with
  | nil => intro s acc; simp
  | cons c cw ih =>
    intro s acc
    have hc : pyIsSpace c = false := hw c (by simp)
    simp only [List.cons_append]
    rw [pysplitGo_cons, if_neg (by simp [hc])]
    rw [ih (fun x hx => hw x (by simp [hx])) s (c :: acc)]
    simp

theorem pysplit_joinWords (ws : List (List Char))
    (h : ∀ w ∈ ws, w ≠ [] ∧ ∀ c ∈ w, pyIsSpace c = false) :
    pysplit (joinWords ws) = ws := by
  induction ws with
  | nil => rfl
  | cons w rest ih =>
    cases rest with
    | nil =>
      have hw := h w (by simp)
      show pysplitGo (joinWords [w]) [] = [w]
      have hj : joinWords [w] = w ++ [] := by simp [joinWords]
      rw [hj, pysplitGo_append w hw.2 [] []]
      rw [pysplitGo_nil]
      rw [if_neg (by simp [hw.1])]
      simp
    | cons x rest' =>
      have hw := h w (by simp)
      show pysplitGo (joinWords (w :: x :: rest')) [] = w :: x :: rest'
      have hj : joinWords (w :: x :: rest') = w ++ ' ' :: joinWords (x :: rest') := rfl
      rw [hj, pysplitGo_append w hw.2 _ []]
      rw [pysplitGo_cons]
      rw [if_pos (by rfl)]
      rw [if_neg (by simp [hw.1])]
      have ih' := ih (fun u hu => h u (by simp [hu]))
      unfold pysplit at ih'
      rw [ih']
      simp



theorem joinWords_append_singleton (A : List (List Char)) (y : List Char) (hA : A ≠ []) :
    joinWords (A ++ [y]) = joinWords A ++ ' ' :: y := by
  induction A with
  | nil => simp at hA
  | cons a as ih =>
    cases as with
    | nil => simp [joinWords]
    | cons b bs =>
      have := ih (by simp)
      simp only [List.cons_append]
      show a ++ ' ' :: joinWords ((b :: bs) ++ [y]) = (a ++ ' ' :: joinWords (b :: bs)) ++ ' ' :: y
      rw [this]
      simp

theorem joinWords_reverse (ws : List (List Char)) :
    (joinWords ws).reverse = joinWords ((ws.map List.reverse).reverse) := by
  induction ws with
  | nil => rfl
  | cons w rest ih =>
    cases rest with
    | nil => simp [joinWords]
    | cons x rest' =>
      show (w ++ ' ' :: joinWords (x :: rest')).reverse = _
      rw [List.reverse_append]
      simp only [List.reverse_cons]
      rw [ih]
      have hne : ((x :: rest').map List.reverse).reverse ≠ [] := by simp
      have hsplit : (List.map List.reverse (w :: x :: rest')).reverse =
          (List.map List.reverse (x :: rest')).reverse ++ [w.reverse] := by simp
      rw [hsplit, joinWords_append_singleton _ w.reverse hne]
      simp

theorem joinWords_head_not_space (w : List Char) (ws : List (List Char))
    (hw : w ≠ []) (hwf : ∀ c ∈ w, pyIsSpace c = false) :
    (joinWords (w :: ws)).dropWhile pyIsSpace = joinWords (w :: ws) := by
  cases w with
  | nil => simp at hw
  | cons c cw =>
    have hc : pyIsSpace c = false := hwf c (by simp)
    cases ws with
    | nil =>
      show (c :: cw).dropWhile pyIsSpace = c :: cw
      rw [List.dropWhile_cons, if_neg (by simp [hc])]
    | cons x rest =>
      show ((c :: cw) ++ ' ' :: joinWords (x :: rest)).dropWhile pyIsSpace = _
      rw [List.cons_append, List.dropWhile_cons, if_neg (by simp [hc])]
      rfl

theorem pystrip_joinWords (ws : List (List Char))
    (h : ∀ w ∈ ws, w ≠ [] ∧ ∀ c ∈ w, pyIsSpace c = false) :
    pystrip (joinWords ws) = joinWords ws := by
  cases ws with
  | nil => rfl
  | cons w rest =>
    unfold pystrip
    rw [joinWords_head_not_space w rest (h w (by simp)).1 (h w (by simp)).2]
    unfold List.rdropWhile
    rw [joinWords_reverse]
    cases hrev : ((w :: rest).map List.reverse).reverse with
    | nil => simp at hrev
    | cons y ys =>
      have hy : ∃ u ∈ w :: rest, u.reverse = y := by
        have : y ∈ ((w :: rest).map List.reverse).reverse := by rw [hrev]; simp
        simp only [List.mem_reverse, List.mem_map] at this
        obtain ⟨u, hu, hu2⟩ := this
        exact ⟨u, hu, hu2⟩
      obtain ⟨u, hu, rfl⟩ := hy
      rw [joinWords_head_not_space u.reverse ys (by simp [(h u hu).1])
        (fun c hc => (h u hu).2 c (by simpa using hc))]
      rw [← hrev, ← joinWords_reverse, List.reverse_reverse]

theorem mem_joinWords {c : Char} {ws : List (List Char)} (h : c ∈ joinWords ws) :
    c = ' ' ∨ ∃ w ∈ ws, c ∈ w := by
  induction ws with
  | nil => simp [joinWords] at h
  | cons w rest ih =>
    cases rest with
    | nil =>
      right; exact ⟨w, by simp, by simpa [joinWords] using h⟩
    | cons x rest' =>
      have : c ∈ w ++ ' ' :: joinWords (x :: rest') := h
      rcases List.mem_append.mp this with h' | h'
      · right; exact ⟨w, by simp, h'⟩
      · rcases List.mem_cons.mp h' with rfl | h''
        · left; rfl
        · rcases ih h'' with h3 | ⟨u, hu, hcu⟩
          · left; exact h3
          · right; exact ⟨u, by simp [hu], hcu⟩

theorem map_fix {f : Char → Char} {l : List Char} (h : ∀ c ∈ l, f c = c) :
    l.map f = l := by
  induction l with
  | nil => rfl
  | cons c cs ih => simp only [List.map_cons, h c (by simp), ih (fun x hx => h x (by simp [hx]))]

theorem joinWords_ne_nil (ws : List (List Char)) (h1 : ws ≠ [])
    (h2 : ∀ w ∈ ws, w ≠ []) : joinWords ws ≠ [] := by
  cases ws with
  | nil => simp at h1
  | cons w rest =>
    cases rest with
    | nil => simpa [joinWords] using h2 w (by simp)
    | cons x rest' =>
      show w ++ ' ' :: joinWords (x :: rest') ≠ []
      simp

theorem pysplitGo_ne_nil (s : List Char) :
    ∀ acc, (acc ≠ [] ∨ ∃ c ∈ s, pyIsSpace c = false) → pysplitGo s acc ≠ [] := by
  induction s with
  | nil =>
    intro acc h
    rcases h with h | h
    · rw [pysplitGo_nil, if_neg (by simpa using h)]; simp
    · simp at h
  | cons c cs ih =>
    intro acc h
    rw [pysplitGo_cons]
    by_cases hsp : pyIsSpace c = true
    · rw [if_pos hsp]
      by_cases hacc : acc.isEmpty
      · rw [if_pos hacc]
        apply ih []
        right
        rcases h with h | ⟨x, hx, hxf⟩
        · simp [List.isEmpty_iff] at hacc; exact absurd hacc h
        · rcases List.mem_cons.mp hx with rfl | hx'
          · rw [hsp] at hxf; simp at hxf
          · exact ⟨x, hx', hxf⟩
      · rw [if_neg hacc]; simp
    · simp only [Bool.not_eq_true] at hsp
      rw [if_neg (by simp [hsp])]
      apply ih (c :: acc)
      left; simp



theorem dropWhile_eq_self_head {p : Char → Bool} {c : Char} {rest : List Char}
    (h : (c :: rest).dropWhile p = c :: rest) : p c = false := by
  rw [List.dropWhile_cons] at h
  by_cases hpc : p c = true
  · rw [if_pos hpc] at h
    have h1 := congrArg List.length h
    have h2 := (List.dropWhile_sublist (l := rest) (p := p)).length_le
    simp at h1
    omega
  · simpa using hpc

theorem dropWhile_pystrip (b : List Char) :
    (pystrip b).dropWhile pyIsSpace = pystrip b :=
  dropWhile_rdropWhile_self (List.dropWhile_idempotent pyIsSpace b)

theorem pystrip_has_sound_char {b : List Char} (h : pystrip b ≠ []) :
    ∃ c ∈ pystrip b, pyIsSpace c = false := by
  cases hb : pystrip b with
  | nil => exact absurd hb h
  | cons c rest =>
    refine ⟨c, by simp, ?_⟩
    have := dropWhile_pystrip b
    rw [hb] at this
    exact dropWhile_eq_self_head this

theorem mem_pylower_fix {c : Char} {z : List Char} (h : c ∈ pylower z) :
    pyToLower c = c := by
  unfold pylower at h
  obtain ⟨x, _, rfl⟩ := List.mem_map.mp h
  exact pyToLower_pyToLower x

-- the three canonicity facts about each normalized field
theorem subject_canon (s : List Char) :
    pystrip (pylower (pystrip s)) = pylower (pystrip s) ∧
    pylower (pylower (pystrip s)) = pylower (pystrip s) := by
  constructor
  · rw [pystrip_pylower, pystrip_idem]
  · rw [pylower_idem]

theorem predicate_canon (y : List Char) (hy : pylower y = y) :
    pystrip (pycollapse y) = pycollapse y ∧
    pylower (pycollapse y) = pycollapse y ∧
    pycollapse (pycollapse y) = pycollapse y := by
  refine ⟨?_, ?_, ?_⟩
  · exact pystrip_joinWords (pysplit y) (pysplit_words y)
  · apply map_fix
    intro c hc
    rcases mem_joinWords hc with rfl | ⟨w, hw, hcw⟩
    · rfl
    · have hcy : c ∈ y := by
        rcases pysplitGo_chars y [] w hw c hcw with h' | h'
        · simp at h'
        · exact h'
      rw [← hy] at hcy
      exact mem_pylower_fix hcy
  · unfold pycollapse
    rw [pysplit_joinWords (pysplit y) (pysplit_words y)]

theorem pycollapse_ne_nil {b : List Char} (h : pystrip b ≠ []) :
    pycollapse (pylower (pystrip b)) ≠ [] := by
  obtain ⟨c, hc, hcf⟩ := pystrip_has_sound_char h
  have hmem : pyToLower c ∈ pylower (pystrip b) := List.mem_map_of_mem pyToLower hc
  have hf : pyIsSpace (pyToLower c) = false := by rw [pyIsSpace_pyToLower]; exact hcf
  have hsplit : pysplit (pylower (pystrip b)) ≠ [] :=
    pysplitGo_ne_nil _ [] (Or.inr ⟨pyToLower c, hmem, hf⟩)
  exact joinWords_ne_nil _ hsplit (fun w hw => (pysplit_words _ w hw).1)


/-! ## Chunker lemmas -/

theorem splitLoop_length (S O : Nat) (ws : List (List Char)) (hO : O < S) :
    ∀ fuel start num, start < ws.length → ws.length - start ≤ fuel → num ≤ start + 1 →
    (splitLoop S O ws fuel start num).length = (ws.length - start - 1) / (S - O) + 1 := by
  intro fuel
  induction fuel with
  | zero => intro start num h1 h2 _; omega
  | succ f ih =>
    intro start num h1 h2 h3
    rw [splitLoop]
    rw [if_pos h1]
    have hns : ¬ (start + S - O ≤ start) := by omega
    rw [if_neg hns]
    by_cases hsafe : num + 1 > ws.length
    · rw [if_pos hsafe]
      have hlt : ws.length - start - 1 < S - O := by omega
      simp [Nat.div_eq_of_lt hlt]
    · rw [if_neg hsafe]
      by_cases hrec : start + S - O < ws.length
      · have e1 := ih (start + S - O) (num + 1) hrec (by omega) (by omega)
        simp only [List.length_cons, e1]
        have h4 : ws.length - start - 1 = (ws.length - (start + S - O) - 1) + (S - O) := by omega
        rw [h4, Nat.add_div_right _ (by omega)]
      · have hnil : splitLoop S O ws f (start + S - O) (num + 1) = [] := by
          cases f with
          | zero => rfl
          | succ f2 => rw [splitLoop, if_neg (by omega)]
        simp only [hnil, List.length_cons, List.length_nil]
        have hlt2 : ws.length - start - 1 < S - O := by omega
        rw [Nat.div_eq_of_lt hlt2]

theorem split_into_chunks_length (S O : Nat) (text : List Char) (hO : O < S) :
    (split_into_chunks S O text).length =
      if (pysplit text).length = 0 then 0
      else ((pysplit text).length - 1) / (S - O) + 1 := by
  unfold split_into_chunks
  by_cases h : (pysplit text).length = 0
  · rw [if_pos h]
    rw [splitLoop, if_neg (by omega)]
    rfl
  · rw [if_neg h]
    exact splitLoop_length S O (pysplit text) hO _ 0 1 (by omega) (by omega) (by omega)


/-! ## Inversion and canonicity of `normalize_triple` -/

theorem normalize_triple_some {t : Json} {n : NormTriple}
    (h : normalize_triple t = .ok (some n)) :
    ∃ s p o : List Char,
      n.subject = pylower (pystrip s) ∧
      n.predicate = pycollapse (pylower (pystrip p)) ∧
      n.object = pylower (pystrip o) ∧
      n.subject ≠ [] ∧ n.predicate ≠ [] ∧ n.object ≠ [] := by
  cases t with
  | str s =>
    simp only [normalize_triple] at h
    by_cases hc : isSubstr ("subject".toList) s ∧ isSubstr ("predicate".toList) s
        ∧ isSubstr ("object".toList) s
    · rw [if_pos hc] at h; simp at h
    · rw [if_neg hc] at h; simp [pure, Except.pure] at h
  | num m => simp only [normalize_triple] at h; exact absurd h (by simp)
  | boolean b => simp only [normalize_triple] at h; exact absurd h (by simp)
  | null => simp only [normalize_triple] at h; exact absurd h (by simp)
  | arr xs =>
    simp only [normalize_triple] at h
    by_cases hc : jarrHasStr xs ("subject".toList) ∧ jarrHasStr xs ("predicate".toList)
        ∧ jarrHasStr xs ("object".toList)
    · rw [if_pos hc] at h; simp at h
    · rw [if_neg hc] at h; simp [pure, Except.pure] at h
  | obj kvs =>
    simp only [normalize_triple] at h
    by_cases hk : "subject" ∈ jKeys kvs ∧ "predicate" ∈ jKeys kvs ∧ "object" ∈ jKeys kvs
    · rw [if_pos hk] at h
      cases hs : (jGet kvs "subject").getD (.str []) with
      | str s =>
        rw [hs] at h
        cases hp : (jGet kvs "predicate").getD (.str []) with
        | str p =>
          rw [hp] at h
          cases ho : (jGet kvs "object").getD (.str []) with
          | str o =>
            rw [ho] at h
            simp only [bind, Except.bind, pure, Except.pure] at h
            by_cases hz : pylower (pystrip s) = [] ∨ pycollapse (pylower (pystrip p)) = []
                ∨ pylower (pystrip o) = []
            · rw [if_pos hz] at h; simp at h
            · rw [if_neg hz] at h
              simp only [Except.ok.injEq, Option.some.injEq] at h
              push_neg at hz
              refine ⟨s, p, o, ?_, ?_, ?_, ?_, ?_, ?_⟩ <;> rw [← h] <;> simp [hz.1, hz.2.1, hz.2.2]
          | num m => rw [ho] at h; simp [bind, Except.bind, pure, Except.pure] at h
          | boolean b => rw [ho] at h; simp [bind, Except.bind, pure, Except.pure] at h
          | null => rw [ho] at h; simp [bind, Except.bind, pure, Except.pure] at h
          | arr xs => rw [ho] at h; simp [bind, Except.bind, pure, Except.pure] at h
          | obj kvs2 => rw [ho] at h; simp [bind, Except.bind, pure, Except.pure] at h
        | num m => rw [hp] at h; simp [bind, Except.bind, pure, Except.pure] at h
        | boolean b => rw [hp] at h; simp [bind, Except.bind, pure, Except.pure] at h
        | null => rw [hp] at h; simp [bind, Except.bind, pure, Except.pure] at h
        | arr xs => rw [hp] at h; simp [bind, Except.bind, pure, Except.pure] at h
        | obj kvs2 => rw [hp] at h; simp [bind, Except.bind, pure, Except.pure] at h
      | num m => rw [hs] at h; simp [bind, Except.bind, pure, Except.pure] at h
      | boolean b => rw [hs] at h; simp [bind, Except.bind, pure, Except.pure] at h
      | null => rw [hs] at h; simp [bind, Except.bind, pure, Except.pure] at h
      | arr xs => rw [hs] at h; simp [bind, Except.bind, pure, Except.pure] at h
      | obj kvs2 => rw [hs] at h; simp [bind, Except.bind, pure, Except.pure] at h
    · rw [if_neg hk] at h; simp [pure, Except.pure] at h


theorem normalize_triple_canon {t : Json} {n : NormTriple}
    (h : normalize_triple t = .ok (some n)) :
    (n.subject ≠ [] ∧ pystrip n.subject = n.subject ∧ pylower n.subject = n.subject) ∧
    (n.predicate ≠ [] ∧ pystrip n.predicate = n.predicate ∧ pylower n.predicate = n.predicate ∧
      pycollapse n.predicate = n.predicate) ∧
    (n.object ≠ [] ∧ pystrip n.object = n.object ∧ pylower n.object = n.object) := by
  obtain ⟨s, p, o, es, ep, eo, hs, hp, ho⟩ := normalize_triple_some h
  refine ⟨⟨hs, ?_, ?_⟩, ⟨hp, ?_, ?_, ?_⟩, ⟨ho, ?_, ?_⟩⟩
  · rw [es]; exact (subject_canon s).1
  · rw [es]; exact (subject_canon s).2
  · rw [ep]; exact (predicate_canon _ (pylower_idem _)).1
  · rw [ep]; exact (predicate_canon _ (pylower_idem _)).2.1
  · rw [ep]; exact (predicate_canon _ (pylower_idem _)).2.2
  · rw [eo]; exact (subject_canon o).1
  · rw [eo]; exact (subject_canon o).2

/-- Re-normalizing an output dict of `normalize_triple`: the string fields are
already canonical, but the provenance is reset to `'unknown'` because the
output dict carries it under `source_chunk` while `normalize_triple` reads
`chunk`. -/
theorem normalize_triple_normOut {t : Json} {n : NormTriple}
    (h : normalize_triple t = .ok (some n)) :
    normalize_triple (normOut n) =
      .ok (some ⟨n.subject, n.predicate, n.object, unknownChunk⟩) := by
  obtain ⟨⟨hs, hs1, hs2⟩, ⟨hp, hp1, hp2, hp3⟩, ⟨ho, ho1, ho2⟩⟩ := normalize_triple_canon h
  show normalize_triple (.obj [("subject", .str n.subject), ("predicate", .str n.predicate),
        ("object", .str n.object), ("source_chunk", n.source_chunk)]) = _
  simp only [normalize_triple]
  rw [if_pos (by simp [jKeys])]
  have g1 : jGet [("subject", Json.str n.subject), ("predicate", Json.str n.predicate),
      ("object", Json.str n.object), ("source_chunk", n.source_chunk)] "subject"
      = some (Json.str n.subject) := by simp [jGet]
  have g2 : jGet [("subject", Json.str n.subject), ("predicate", Json.str n.predicate),
      ("object", Json.str n.object), ("source_chunk", n.source_chunk)] "predicate"
      = some (Json.str n.predicate) := by simp [jGet]
  have g3 : jGet [("subject", Json.str n.subject), ("predicate", Json.str n.predicate),
      ("object", Json.str n.object), ("source_chunk", n.source_chunk)] "object"
      = some (Json.str n.object) := by simp [jGet]
  have g4 : jGet [("subject", Json.str n.subject), ("predicate", Json.str n.predicate),
      ("object", Json.str n.object), ("source_chunk", n.source_chunk)] "chunk"
      = none := by simp [jGet]
  rw [g1, g2, g3, g4]
  simp only [Option.getD_some, Option.getD_none, bind, Except.bind, pure, Except.pure]
  have es : pylower (pystrip n.subject) = n.subject := by rw [hs1, hs2]
  have eo : pylower (pystrip n.object) = n.object := by rw [ho1, ho2]
  have ep : pycollapse (pylower (pystrip n.predicate)) = n.predicate := by
    rw [hp1, hp2, hp3]
  rw [es, eo, ep]
  rw [if_neg (by simp [hs, hp, ho])]


/-! ## Deduplication machinery -/

theorem normAll_cons (t : Json) (ts : List Json) :
    normAll (t :: ts) =
      match normalize_triple t with
      | .error e => .error e
      | .ok r =>
        match normAll ts with
        | .error e => .error e
        | .ok rest => .ok (match r with | none => rest | some n => n :: rest) := by
  show (do
    let r ← normalize_triple t
    let rest ← normAll ts
    match r with
    | none => pure rest
    | some n => pure (n :: rest)) = _
  cases normalize_triple t with
  | error e => rfl
  | ok r =>
    show (do
      let rest ← normAll ts
      match r with
      | none => pure rest
      | some n => pure (n :: rest) : Except String (List NormTriple)) = _
    cases normAll ts with
    | error e => cases r <;> rfl
    | ok rest => cases r <;> rfl

theorem dedupGo_cons (seen : List (List Char × List Char × List Char)) (t : Json)
    (ts : List Json) :
    dedupGo seen (t :: ts) =
      match normalize_triple t with
      | .error e => .error e
      | .ok none => dedupGo seen ts
      | .ok (some n) =>
        if tkey n ∈ seen then dedupGo seen ts
        else
          match dedupGo (tkey n :: seen) ts with
          | .error e => .error e
          | .ok rest => .ok (n :: rest) := by
  show (do
    match ← normalize_triple t with
    | none => dedupGo seen ts
    | some n =>
      if tkey n ∈ seen then dedupGo seen ts
      else do
        let rest ← dedupGo (tkey n :: seen) ts
        pure (n :: rest)) = _
  cases normalize_triple t with
  | error e => rfl
  | ok r =>
    cases r with
    | none => rfl
    | some n =>
      show (if tkey n ∈ seen then dedupGo seen ts
        else do
          let rest ← dedupGo (tkey n :: seen) ts
          pure (n :: rest)) =
        (if tkey n ∈ seen then dedupGo seen ts
         else
           match dedupGo (tkey n :: seen) ts with
           | .error e => .error e
           | .ok rest => .ok (n :: rest))
      by_cases hseen : tkey n ∈ seen
      · rw [if_pos hseen, if_pos hseen]
      · rw [if_neg hseen, if_neg hseen]
        cases dedupGo (tkey n :: seen) ts with
        | error e => rfl
        | ok rest => rfl

theorem firstOccurAux_cons (seen : List (List Char × List Char × List Char))
    (n : NormTriple) (ns : List NormTriple) :
    firstOccurAux seen (n :: ns) =
      if tkey n ∈ seen then firstOccurAux seen ns
      else n :: firstOccurAux (tkey n :: seen) ns := rfl

theorem dedupGo_eq (ts : List Json) :
    ∀ seen, dedupGo seen ts =
      match normAll ts with
      | .error e => .error e
      | .ok ns => .ok (firstOccurAux seen ns) := by
  induction ts with
  | nil => intro seen; rfl
  | cons t ts ih =>
    intro seen
    rw [dedupGo_cons, normAll_cons]
    cases hn : normalize_triple t with
    | error e => rfl
    | ok r =>
      cases r with
      | none =>
        rw [ih seen]
        cases normAll ts with
        | error e => rfl
        | ok ns => rfl
      | some n =>
        show (if tkey n ∈ seen then dedupGo seen ts
          else
            match dedupGo (tkey n :: seen) ts with
            | .error e => .error e
            | .ok rest => .ok (n :: rest)) =
          (match (match normAll ts with
             | .error e => .error e
             | .ok rest => Except.ok (n :: rest) : Except String (List NormTriple)) with
           | .error e => Except.error e
           | .ok ns => Except.ok (firstOccurAux seen ns))
        by_cases hseen : tkey n ∈ seen
        · rw [if_pos hseen, ih seen]
          cases normAll ts with
          | error e => rfl
          | ok ns =>
            show Except.ok (firstOccurAux seen ns) = Except.ok (firstOccurAux seen (n :: ns))
            rw [firstOccurAux_cons, if_pos hseen]
        · rw [if_neg hseen, ih (tkey n :: seen)]
          cases normAll ts with
          | error e => rfl
          | ok ns =>
            show Except.ok (n :: firstOccurAux (tkey n :: seen) ns) =
              Except.ok (firstOccurAux seen (n :: ns))
            rw [firstOccurAux_cons, if_neg hseen]

theorem deduplicate_triples_eq (ts : List Json) :
    deduplicate_triples ts =
      match normAll ts with
      | .error e => .error e
      | .ok ns => .ok (firstOccurSpec ns) :=
  dedupGo_eq ts []


theorem firstOccurAux_subset {ns : List NormTriple} :
    ∀ seen n, n ∈ firstOccurAux seen ns → n ∈ ns := by
  induction ns with
  | nil => intro seen n h; simp [firstOccurAux] at h
  | cons m ms ih =>
    intro seen n h
    rw [firstOccurAux_cons] at h
    by_cases hs : tkey m ∈ seen
    · rw [if_pos hs] at h
      exact List.mem_cons_of_mem m (ih seen n h)
    · rw [if_neg hs] at h
      rcases List.mem_cons.mp h with rfl | h'
      · simp
      · exact List.mem_cons_of_mem m (ih _ n h')

theorem firstOccurAux_not_seen {ns : List NormTriple} :
    ∀ seen n, n ∈ firstOccurAux seen ns → tkey n ∉ seen := by
  induction ns with
  | nil => intro seen n h; simp [firstOccurAux] at h
  | cons m ms ih =>
    intro seen n h
    rw [firstOccurAux_cons] at h
    by_cases hs : tkey m ∈ seen
    · rw [if_pos hs] at h
      exact ih seen n h
    · rw [if_neg hs] at h
      rcases List.mem_cons.mp h with rfl | h'
      · exact hs
      · intro hmem
        exact ih _ n h' (List.mem_cons_of_mem _ hmem)

theorem firstOccurAux_key_nodup {ns : List NormTriple} :
    ∀ seen, ((firstOccurAux seen ns).map tkey).Nodup := by
  induction ns with
  | nil => intro seen; simp [firstOccurAux]
  | cons m ms ih =>
    intro seen
    rw [firstOccurAux_cons]
    by_cases hs : tkey m ∈ seen
    · rw [if_pos hs]; exact ih seen
    · rw [if_neg hs]
      simp only [List.map_cons, List.nodup_cons]
      refine ⟨?_, ih _⟩
      intro hmem
      obtain ⟨n, hn, hkey⟩ := List.mem_map.mp hmem
      have := firstOccurAux_not_seen _ n hn
      rw [hkey] at this
      simp at this

theorem firstOccurAux_find? {ns : List NormTriple} :
    ∀ seen k, k ∉ seen →
      (firstOccurAux seen ns).find? (fun n => tkey n == k) =
        ns.find? (fun n => tkey n == k) := by
  induction ns with
  | nil => intro seen k _; simp [firstOccurAux]
  | cons m ms ih =>
    intro seen k hk
    rw [firstOccurAux_cons]
    by_cases hs : tkey m ∈ seen
    · rw [if_pos hs]
      rw [List.find?_cons]
      have hne : (tkey m == k) = false := by
        simp only [beq_eq_false_iff_ne]
        intro he
        exact hk (he ▸ hs)
      rw [hne]
      exact ih seen k hk
    · rw [if_neg hs]
      rw [List.find?_cons, List.find?_cons]
      by_cases heq : (tkey m == k) = true
      · rw [heq]
      · simp only [Bool.not_eq_true] at heq
        rw [heq]
        apply ih
        intro hmem
        rcases List.mem_cons.mp hmem with he | hmem'
        · rw [he] at heq; simp at heq
        · exact hk hmem'

theorem firstOccurAux_length_le {ns : List NormTriple} :
    ∀ seen, (firstOccurAux seen ns).length ≤ ns.length := by
  induction ns with
  | nil => intro seen; simp [firstOccurAux]
  | cons m ms ih =>
    intro seen
    rw [firstOccurAux_cons]
    by_cases hs : tkey m ∈ seen
    · rw [if_pos hs]
      exact Nat.le_succ_of_le (ih seen)
    · rw [if_neg hs]
      simpa using ih (tkey m :: seen)

theorem normAll_mem {ts : List Json} {ns : List NormTriple}
    (h : normAll ts = .ok ns) :
    ∀ n ∈ ns, ∃ t ∈ ts, normalize_triple t = .ok (some n) := by
  induction ts generalizing ns with
  | nil =>
    intro n hn
    simp only [normAll] at h
    cases h
    simp at hn
  | cons t ts ih =>
    intro n hn
    rw [normAll_cons] at h
    cases hnt : normalize_triple t with
    | error e => rw [hnt] at h; cases h
    | ok r =>
      rw [hnt] at h
      cases hrest : normAll ts with
      | error e => rw [hrest] at h; cases h
      | ok rest =>
        rw [hrest] at h
        cases r with
        | none =>
          simp only [Except.ok.injEq] at h
          subst h
          obtain ⟨u, hu, hnu⟩ := ih hrest n hn
          exact ⟨u, by simp [hu], hnu⟩
        | some m =>
          simp only [Except.ok.injEq] at h
          subst h
          rcases List.mem_cons.mp hn with rfl | hn'
          · exact ⟨t, by simp, hnt⟩
          · obtain ⟨u, hu, hnu⟩ := ih hrest n hn'
            exact ⟨u, by simp [hu], hnu⟩

theorem normAll_length_le {ts : List Json} {ns : List NormTriple}
    (h : normAll ts = .ok ns) : ns.length ≤ ts.length := by
  induction ts generalizing ns with
  | nil =>
    simp only [normAll] at h
    cases h
    simp
  | cons t ts ih =>
    rw [normAll_cons] at h
    cases hnt : normalize_triple t with
    | error e => rw [hnt] at h; cases h
    | ok r =>
      rw [hnt] at h
      cases hrest : normAll ts with
      | error e => rw [hrest] at h; cases h
      | ok rest =>
        rw [hrest] at h
        cases r with
        | none =>
          simp only [Except.ok.injEq] at h
          subst h
          exact Nat.le_succ_of_le (ih hrest)
        | some m =>
          simp only [Except.ok.injEq] at h
          subst h
          simpa using ih hrest


theorem validItem_normalize {t : Json} (h : validItem t = true) :
    ∃ m : NormTriple, normalize_triple t = .ok (some m) := by
  cases t with
  | str s => simp [validItem] at h
  | num m => simp [validItem] at h
  | boolean b => simp [validItem] at h
  | null => simp [validItem] at h
  | arr xs => simp [validItem] at h
  | obj kvs =>
    simp only [validItem] at h
    cases hs : jGet kvs "subject" with
    | none => rw [hs] at h; simp at h
    | some vs =>
      cases hp : jGet kvs "predicate" with
      | none => rw [hs, hp] at h; cases vs <;> simp at h
      | some vp =>
        cases ho : jGet kvs "object" with
        | none => rw [hs, hp, ho] at h; cases vs <;> cases vp <;> simp at h
        | some vo =>
          rw [hs, hp, ho] at h
          cases vs with
          | str a =>
            cases vp with
            | str b =>
              cases vo with
              | str c =>
                simp only [Bool.and_eq_true, decide_eq_true_eq, Bool.not_eq_true'] at h
                obtain ⟨⟨⟨hk1, hk2⟩, hk3⟩, ⟨hna, hnb⟩, hnc⟩ := h
                have hna2 : pystrip a ≠ [] := by
                  intro hh; rw [hh] at hna; exact absurd hna (by simp)
                have hnb2 : pystrip b ≠ [] := by
                  intro hh; rw [hh] at hnb; exact absurd hnb (by simp)
                have hnc2 : pystrip c ≠ [] := by
                  intro hh; rw [hh] at hnc; exact absurd hnc (by simp)
                refine ⟨⟨pylower (pystrip a), pycollapse (pylower (pystrip b)),
                  pylower (pystrip c), (jGet kvs "chunk").getD unknownChunk⟩, ?_⟩
                simp only [normalize_triple]
                rw [if_pos ⟨hk1, hk2, hk3⟩]
                rw [hs, hp, ho]
                simp only [Option.getD_some, bind, Except.bind, pure, Except.pure]
                rw [if_neg ?_]
                push_neg
                refine ⟨?_, ?_, ?_⟩
                · simp [pylower, hna2]
                · exact pycollapse_ne_nil hnb2
                · simp [pylower, hnc2]
              | num m => simp at h
              | boolean bb => simp at h
              | null => simp at h
              | arr xs => simp at h
              | obj kvs2 => simp at h
            | num m => cases vo <;> simp at h
            | boolean bb => cases vo <;> simp at h
            | null => cases vo <;> simp at h
            | arr xs => cases vo <;> simp at h
            | obj kvs2 => cases vo <;> simp at h
          | num m => cases vp <;> cases vo <;> simp at h
          | boolean bb => cases vp <;> cases vo <;> simp at h
          | null => cases vp <;> cases vo <;> simp at h
          | arr xs => cases vp <;> cases vo <;> simp at h
          | obj kvs2 => cases vp <;> cases vo <;> simp at h

theorem normAll_of_valid {ts : List Json} (h : ∀ t ∈ ts, validItem t = true) :
    ∃ ns : List NormTriple, normAll ts = .ok ns := by
  induction ts with
  | nil => exact ⟨[], rfl⟩
  | cons t ts ih =>
    obtain ⟨m, hm⟩ := validItem_normalize (h t (by simp))
    obtain ⟨ns, hns⟩ := ih (fun u hu => h u (by simp [hu]))
    refine ⟨m :: ns, ?_⟩
    rw [normAll_cons, hm, hns]


theorem tkey_resetChunk (n : NormTriple) : tkey (resetChunk n) = tkey n := rfl

theorem dedupGo_renorm (ms : List NormTriple)
    (hre : ∀ n ∈ ms, normalize_triple (normOut n) = .ok (some (resetChunk n))) :
    ∀ seen, ((ms.map tkey).Nodup) → (∀ n ∈ ms, tkey n ∉ seen) →
      dedupGo seen (ms.map normOut) = .ok (ms.map resetChunk) := by
  induction ms with
  | nil => intro seen _ _; rfl
  | cons m ms ih =>
    intro seen hnd hseen
    rw [List.map_cons, dedupGo_cons, hre m (by simp)]
    show (if tkey (resetChunk m) ∈ seen then dedupGo seen (ms.map normOut)
      else
        match dedupGo (tkey (resetChunk m) :: seen) (ms.map normOut) with
        | .error e => .error e
        | .ok rest => .ok (resetChunk m :: rest)) = _
    rw [tkey_resetChunk]
    rw [if_neg (hseen m (by simp))]
    have hnd' : (ms.map tkey).Nodup := by
      simp only [List.map_cons, List.nodup_cons] at hnd
      exact hnd.2
    have hseen' : ∀ n ∈ ms, tkey n ∉ tkey m :: seen := by
      intro n hn
      simp only [List.map_cons, List.nodup_cons] at hnd
      intro hmem
      rcases List.mem_cons.mp hmem with he | hmem'
      · exact hnd.1 (by rw [← he]; exact List.mem_map_of_mem tkey hn)
      · exact hseen n (by simp [hn]) hmem'
    rw [ih (fun n hn => hre n (by simp [hn])) (tkey m :: seen) hnd' hseen']
    rfl

theorem dedup_ok_inv {X : List Json} {ys : List NormTriple}
    (h : deduplicate_triples X = .ok ys) :
    ∃ ns : List NormTriple, normAll X = .ok ns ∧ ys = firstOccurSpec ns := by
  rw [deduplicate_triples_eq] at h
  cases hna : normAll X with
  | error e => rw [hna] at h; cases h
  | ok ns =>
    rw [hna] at h
    simp only [Except.ok.injEq] at h
    exact ⟨ns, rfl, h.symm⟩

theorem dedup_renorm {X : List Json} {ys : List NormTriple}
    (h : deduplicate_triples X = .ok ys) :
    deduplicate_triples (ys.map normOut) = .ok (ys.map resetChunk) := by
  obtain ⟨ns, hna, rfl⟩ := dedup_ok_inv h
  apply dedupGo_renorm
  · intro n hn
    obtain ⟨t, _, hnt⟩ := normAll_mem hna n (firstOccurAux_subset [] n hn)
    exact normalize_triple_normOut hnt
  · exact firstOccurAux_key_nodup []
  · intro n _
    simp


/-! ## Parser lemmas -/

theorem jGet_some_mem {kvs : List (String × Json)} {k : String} {v : Json}
    (h : jGet kvs k = some v) : k ∈ jKeys kvs := by
  unfold jGet at h
  cases hf : kvs.find? (fun p => p.1 == k) with
  | none => rw [hf] at h; cases h
  | some p =>
    have hp := List.find?_some hf
    have hmem := List.mem_of_find?_eq_some hf
    simp only [beq_iff_eq] at hp
    rw [← hp]
    exact List.mem_map_of_mem (fun q => q.1) hmem

theorem find?_map_update (k k2 : String) (v : Json) (h : k2 ≠ k)
    (kvs : List (String × Json)) :
    List.find? (fun p => p.1 == k2) (kvs.map (fun p => if p.1 == k then (k, v) else p)) =
      List.find? (fun p => p.1 == k2) kvs := by
  induction kvs with
  | nil => rfl
  | cons p ps ih =>
    simp only [List.map_cons, List.find?_cons]
    by_cases hpk : (p.1 == k) = true
    · rw [if_pos hpk]
      simp only [beq_iff_eq] at hpk
      have h1 : ((k, v).1 == k2) = false := by
        simp only [beq_eq_false_iff_ne]
        exact fun he => h he.symm
      have h2 : (p.1 == k2) = false := by
        simp only [beq_eq_false_iff_ne, hpk]
        exact fun he => h he.symm
      simp only [h1, h2]
      exact ih
    · rw [if_neg hpk]
      by_cases hpk2 : (p.1 == k2) = true
      · simp only [hpk2]
      · simp only [Bool.not_eq_true] at hpk2
        simp only [hpk2]
        exact ih

theorem find?_append_single (k k2 : String) (v : Json) (h : k2 ≠ k) :
    ∀ kvs : List (String × Json),
      List.find? (fun p => p.1 == k2) (kvs ++ [(k, v)]) =
        List.find? (fun p => p.1 == k2) kvs := by
  intro kvs
  induction kvs with
  | nil =>
    simp only [List.nil_append, List.find?_cons, List.find?_nil]
    have h1 : ((k, v).1 == k2) = false := by
      simp only [beq_eq_false_iff_ne]
      exact fun he => h he.symm
    simp only [h1]
  | cons p ps ih =>
    simp only [List.cons_append, List.find?_cons]
    by_cases hpk2 : (p.1 == k2) = true
    · simp only [hpk2]
    · simp only [Bool.not_eq_true] at hpk2
      simp only [hpk2]
      exact ih

theorem jGet_dictSet_ne (kvs : List (String × Json)) (k k2 : String) (v : Json)
    (h : k2 ≠ k) : jGet (dictSet kvs k v) k2 = jGet kvs k2 := by
  unfold dictSet
  by_cases ha : kvs.any (fun p => p.1 == k)
  · rw [if_pos ha]
    unfold jGet
    rw [find?_map_update k k2 v h kvs]
  · rw [if_neg ha]
    unfold jGet
    rw [find?_append_single k k2 v h kvs]

theorem keepItem_shaped {cn : Int} {item t : Json} (h : keepItem cn item = some t) :
    isTripleShaped t = true := by
  cases item with
  | str s => cases h
  | num m => cases h
  | boolean b => cases h
  | null => cases h
  | arr ys => cases h
  | obj kvs =>
    simp only [keepItem] at h
    by_cases hk : "subject" ∈ jKeys kvs ∧ "predicate" ∈ jKeys kvs ∧ "object" ∈ jKeys kvs
    · rw [if_pos hk] at h
      cases hs : jGet kvs "subject" with
      | none => rw [hs] at h; simp at h
      | some vs =>
        cases hp : jGet kvs "predicate" with
        | none => rw [hs, hp] at h; cases vs <;> simp at h
        | some vp =>
          cases ho : jGet kvs "object" with
          | none => rw [hs, hp, ho] at h; cases vs <;> cases vp <;> simp at h
          | some vo =>
            rw [hs, hp, ho] at h
            cases vs with
            | str a =>
              cases vp with
              | str b =>
                cases vo with
                | str c =>
                  simp only [Option.some.injEq] at h
                  rw [← h]
                  have g1 : jGet (dictSet kvs "chunk" (.num cn)) "subject"
                      = some (.str a) := by
                    rw [jGet_dictSet_ne _ _ _ _ (by decide)]; exact hs
                  have g2 : jGet (dictSet kvs "chunk" (.num cn)) "predicate"
                      = some (.str b) := by
                    rw [jGet_dictSet_ne _ _ _ _ (by decide)]; exact hp
                  have g3 : jGet (dictSet kvs "chunk" (.num cn)) "object"
                      = some (.str c) := by
                    rw [jGet_dictSet_ne _ _ _ _ (by decide)]; exact ho
                  simp only [isTripleShaped, g1, g2, g3]
                  simp [jGet_some_mem g1, jGet_some_mem g2, jGet_some_mem g3]
                | num m => simp at h
                | boolean bb => simp at h
                | null => simp at h
                | arr ys => simp at h
                | obj kvs2 => simp at h
              | num m => cases vo <;> simp at h
              | boolean bb => cases vo <;> simp at h
              | null => cases vo <;> simp at h
              | arr ys => cases vo <;> simp at h
              | obj kvs2 => cases vo <;> simp at h
            | num m => cases vp <;> cases vo <;> simp at h
            | boolean bb => cases vp <;> cases vo <;> simp at h
            | null => cases vp <;> cases vo <;> simp at h
            | arr ys => cases vp <;> cases vo <;> simp at h
            | obj kvs2 => cases vp <;> cases vo <;> simp at h
    · rw [if_neg hk] at h
      cases h

theorem parseTriples_kept_shaped (parsed : Json) (cn : Int) :
    ∀ t ∈ (parseTriples parsed cn).2.1, isTripleShaped t = true := by
  intro t ht
  unfold parseTriples at ht
  cases hts : topStructure parsed with
  | error e => rw [hts] at ht; simp at ht
  | ok plist =>
    rw [hts] at ht
    simp only at ht
    obtain ⟨item, _, hkeep⟩ := List.mem_filterMap.mp ht
    exact keepItem_shaped hkeep


theorem validItem_eq_of_shaped {t : Json} (h : isTripleShaped t = true) :
    validItem t = hasNonemptyFields t := by
  cases t with
  | str s => simp [isTripleShaped] at h
  | num m => simp [isTripleShaped] at h
  | boolean b => simp [isTripleShaped] at h
  | null => simp [isTripleShaped] at h
  | arr ys => simp [isTripleShaped] at h
  | obj kvs =>
    simp only [isTripleShaped, Bool.and_eq_true] at h
    simp only [validItem, hasNonemptyFields, h.1, Bool.true_and]

theorem parseTriples_success (parsed : Json) (cn : Int) :
    (parseTriples parsed cn).1 = structureOk parsed := by
  unfold parseTriples
  cases parsed with
  | str s => rfl
  | num m => rfl
  | boolean b => rfl
  | null => rfl
  | arr xs => rfl
  | obj kvs =>
    simp only [topStructure, structureOk]
    by_cases hk : "subject" ∈ jKeys kvs ∧ "predicate" ∈ jKeys kvs ∧ "object" ∈ jKeys kvs
    · rw [if_pos hk]
      simp [hk.1, hk.2.1, hk.2.2]
    · rw [if_neg hk]
      have hkb : (decide ("subject" ∈ jKeys kvs) && decide ("predicate" ∈ jKeys kvs)
          && decide ("object" ∈ jKeys kvs)) = false := by
        rcases Decidable.not_and_iff_or_not.mp hk with h1 | h23
        · simp [h1]
        · rcases Decidable.not_and_iff_or_not.mp h23 with h2 | h3
          · simp [h2]
          · simp [h3]
      rw [hkb, Bool.false_or]
      cases hlv : kvs.filterMap (fun p => match p.2 with | .arr xs => some xs | _ => none) with
      | nil => rfl
      | cons lv rest =>
        cases rest with
        | nil => rfl
        | cons lv2 rest2 => rfl


/-! ## `process_results` branch equations -/

theorem process_results_ok {all : List (List Json)} {failed : List FailedChunk}
    {ys : List NormTriple} (h : deduplicate_triples all.flatten = .ok ys) :
    process_results all failed =
      ⟨ys,
       ⟨all.length + failed.length, all.length, failed.length,
        all.flatten.length, ys.length,
        (all.flatten.length : Int) - (ys.length : Int)⟩,
       failed⟩ := by
  unfold process_results
  dsimp only
  rw [h]

theorem process_results_error {all : List (List Json)} {failed : List FailedChunk}
    {e : String} (h : deduplicate_triples all.flatten = .error e) :
    process_results all failed =
      ⟨[],
       ⟨all.length + failed.length, 0, all.length + failed.length, 0, 0, 0⟩,
       failed ++ [⟨none, "Processing error: " ++ e⟩]⟩ := by
  unfold process_results
  dsimp only
  rw [h]

theorem process_results_jsonld_error {C E R : Type} {ont : C}
    {normRDF : List E → Except String (List E)}
    {all : List (JDoc C (List E) R)} {failed : List FailedChunk} {e : String}
    (h : normRDF ((all.map (fun d => d.graph.getD [])).flatten) = .error e) :
    process_results_jsonld ont normRDF all failed =
      ⟨ont, [],
       ⟨all.length + failed.length, 0, all.length + failed.length, 0, 0, 0⟩,
       failed ++ [⟨none, "Processing error: " ++ e⟩]⟩ := by
  unfold process_results_jsonld
  dsimp only
  rw [h]


/-! ## Claim C1 -/

set_option maxRecDepth 10000 in
/-- C1 counterexample: with `chunk_size=100`, `overlap=20`, a 250-word text
yields 4 chunks, not the 3 the claim states: the loop keeps sliding past the
point where a window already reaches the final word, emitting a last window
`[241..250]` contained in the previous one. -/
theorem C1_counterexample :
    (split_into_chunks 100 20 text250).length = 4 ∧
    (split_into_chunks 100 20 text250).length ≠ 3 := by
  constructor
  · decide
  · decide

set_option maxRecDepth 100000 in
/-- C1 (amended): for `0 ≤ O < S`, `split_into_chunks` emits
`ceil(N / (S − O))` chunks for a text of `N > 0` words — equivalently
`(N − 1) / (S − O) + 1`, which is 1 exactly when `0 < N ≤ S − O` — and 0
chunks for an empty or whitespace-only text; the 250-word example with
`S=100`, `O=20` yields 4 chunks covering words `[1..100]`, `[81..180]`,
`[161..250]` and `[241..250]`, of 100, 100, 90 and 10 words respectively. -/
theorem C1_theorem :
    (∀ (S O : Nat) (text : List Char), O < S →
      (split_into_chunks S O text).length =
        if (pysplit text).length = 0 then 0
        else ((pysplit text).length - 1) / (S - O) + 1) ∧
    split_into_chunks 100 20 text250 =
      [⟨joinWords ((words250.drop 0).take 100), 1⟩,
       ⟨joinWords ((words250.drop 80).take 100), 2⟩,
       ⟨joinWords ((words250.drop 160).take 100), 3⟩,
       ⟨joinWords ((words250.drop 240).take 100), 4⟩] ∧
    (split_into_chunks 100 20 text250).map (fun c => (pysplit c.text).length) =
      [100, 100, 90, 10] := by
  refine ⟨?_, ?_, ?_⟩
  · intro S O text hO
    exact split_into_chunks_length S O text hO
  · decide
  · decide

/-- C1 witness: the amended count formula evaluated at a 2-word text with
`chunk_size=3`, `overlap=1`. -/
theorem C1_witness : (split_into_chunks 3 1 ("a b".toList)).length = 1 := by
  have h := C1_theorem.1 3 1 ("a b".toList) (by decide)
  rw [h]
  decide


/-! ## Claim C2 -/

/-- C2 counterexample: `deduplicate_triples` is not idempotent.  For the
single input dict `{"subject": "a", "predicate": "b", "object": "c",
"chunk": 1}` the first pass records `source_chunk = 1`, but its output dict
carries the provenance under the key `source_chunk`, which the second pass
does not read (`triple.get('chunk', 'unknown')`), so the second pass resets
the provenance to `'unknown'` and the results differ. -/
theorem C2_counterexample :
    deduplicate_triples
        [.obj [("subject", .str ['a']), ("predicate", .str ['b']),
               ("object", .str ['c']), ("chunk", .num 1)]] =
      .ok [⟨['a'], ['b'], ['c'], .num 1⟩] ∧
    deduplicate_triples
        (([⟨['a'], ['b'], ['c'], .num 1⟩] : List NormTriple).map normOut) =
      .ok [⟨['a'], ['b'], ['c'], unknownChunk⟩] ∧
    (⟨['a'], ['b'], ['c'], Json.num 1⟩ : NormTriple) ≠
      ⟨['a'], ['b'], ['c'], unknownChunk⟩ := by
  refine ⟨rfl, rfl, ?_⟩
  intro h
  have := congrArg NormTriple.source_chunk h
  simp [unknownChunk] at this

/-- C2 (amended): `deduplicate_triples` is idempotent up to provenance: a
second application keeps exactly the same triples in the same order, with
every `source_chunk` reset to `'unknown'` (so the two applications agree
exactly when every first-pass provenance was already `'unknown'`). -/
theorem C2_theorem (X : List Json) (ys : List NormTriple)
    (h : deduplicate_triples X = .ok ys) :
    deduplicate_triples (ys.map normOut) = .ok (ys.map resetChunk) :=
  dedup_renorm h

/-- C2 witness: the amended idempotence applied to the one-triple list
obtained from the Marie Curie example. -/
theorem C2_witness :
    deduplicate_triples
        (([⟨"marie  curie".toList, "discovered".toList, "radium".toList,
            unknownChunk⟩] : List NormTriple).map normOut) =
      .ok (([⟨"marie  curie".toList, "discovered".toList, "radium".toList,
            unknownChunk⟩] : List NormTriple).map resetChunk) :=
  C2_theorem [marieTriple]
    [⟨"marie  curie".toList, "discovered".toList, "radium".toList, unknownChunk⟩] rfl

/-! ## Claim C3 -/

/-- C3: `process_results` never raises.  In the triples path, if the
merge/deduplication stage raises, the exception is caught and the result is
the empty canonical result (empty triples, zeroed triple counts) whose
`failed_chunks` is the input list plus one synthetic entry describing the
merge error; likewise in the JSON-LD path with an empty `@graph`. -/
theorem C3_theorem :
    (∀ (all : List (List Json)) (failed : List FailedChunk) (e : String),
      deduplicate_triples all.flatten = .error e →
      process_results all failed =
        ⟨[],
         ⟨all.length + failed.length, 0, all.length + failed.length, 0, 0, 0⟩,
         failed ++ [⟨none, "Processing error: " ++ e⟩]⟩) ∧
    (∀ (C E R : Type) (ont : C) (normRDF : List E → Except String (List E))
      (all : List (JDoc C (List E) R)) (failed : List FailedChunk) (e : String),
      normRDF ((all.map (fun d => d.graph.getD [])).flatten) = .error e →
      process_results_jsonld ont normRDF all failed =
        ⟨ont, [],
         ⟨all.length + failed.length, 0, all.length + failed.length, 0, 0, 0⟩,
         failed ++ [⟨none, "Processing error: " ++ e⟩]⟩) :=
  ⟨fun _ _ _ h => process_results_error h,
   fun _ _ _ _ _ _ _ _ h => process_results_jsonld_error h⟩

/-- C3 witness: a merge-stage exception is reachable — a non-dict triple
(`5`) makes `normalize_triple` raise `TypeError` — and the caught exception
produces exactly the synthetic failed-chunk entry; similarly for a failing
RDF round-trip in the JSON-LD path. -/
theorem C3_witness :
    process_results [[Json.num 5]] [] =
      ⟨[], ⟨1, 0, 1, 0, 0, 0⟩, [⟨none, "Processing error: TypeError"⟩]⟩ ∧
    process_results_jsonld (0 : Nat)
        (fun _ : List Nat => Except.error "KeyError")
        ([] : List (JDoc Nat (List Nat) Nat)) [] =
      ⟨0, [], ⟨0, 0, 0, 0, 0, 0⟩, [⟨none, "Processing error: KeyError"⟩]⟩ :=
  ⟨C3_theorem.1 [[Json.num 5]] [] "TypeError" rfl,
   C3_theorem.2 Nat Nat Nat 0 (fun _ => Except.error "KeyError") [] [] "KeyError" rfl⟩

/-! ## Claim C4 -/

/-- C4: deduplication keys on the normalized `(subject, predicate, object)`
tuple only: the output keys are pairwise distinct (so at most one triple per
tuple survives), and for every key the surviving triple is literally the
first normalized occurrence in input order (hence it carries the
`source_chunk` of the earliest occurrence, and `source_chunk` plays no role
in the identity). -/
theorem C4_theorem (X : List Json) (ys : List NormTriple)
    (h : deduplicate_triples X = .ok ys) :
    ((ys.map tkey).Nodup) ∧
    ∃ ns : List NormTriple, normAll X = .ok ns ∧
      ∀ k, ys.find? (fun n => tkey n == k) = ns.find? (fun n => tkey n == k) := by
  obtain ⟨ns, hna, rfl⟩ := dedup_ok_inv h
  exact ⟨firstOccurAux_key_nodup [], ns, hna,
    fun k => firstOccurAux_find? [] k (by simp)⟩

/-- C4 witness: two case-variant duplicates across chunks collapse to the
first occurrence. -/
theorem C4_witness :
    ((([⟨['a'], ['b'], ['c'], Json.num 1⟩] : List NormTriple).map tkey).Nodup) :=
  (C4_theorem
    [.obj [("subject", .str ['a']), ("predicate", .str ['b']),
           ("object", .str ['c']), ("chunk", .num 1)],
     .obj [("subject", .str ['A', ' ']), ("predicate", .str ['b']),
           ("object", .str ['c']), ("chunk", .num 2)]]
    [⟨['a'], ['b'], ['c'], Json.num 1⟩] rfl).1

/-! ## Claim C5 -/

/-- C5 counterexample: normalization does not collapse internal whitespace in
the subject: `" Marie  Curie "` normalizes to `"marie  curie"` (two internal
spaces preserved), not `"marie curie"`. -/
theorem C5_counterexample :
    normalize_triple marieTriple =
      .ok (some ⟨"marie  curie".toList, "discovered".toList,
        "radium".toList, unknownChunk⟩) ∧
    "marie  curie".toList ≠ "marie curie".toList := by
  exact ⟨rfl, by decide⟩

/-- C5 (amended): each of subject, predicate and object is trimmed and
lowercased, but only the predicate additionally has internal whitespace
collapsed; in particular the example triple normalizes to subject
`"marie  curie"` (internal double space preserved), predicate
`"discovered"`, object `"radium"`. -/
theorem C5_theorem :
    (normalize_triple marieTriple =
      .ok (some ⟨"marie  curie".toList, "discovered".toList,
        "radium".toList, unknownChunk⟩)) ∧
    ∀ (t : Json) (n : NormTriple), normalize_triple t = .ok (some n) →
      (pystrip n.subject = n.subject ∧ pylower n.subject = n.subject) ∧
      (pystrip n.predicate = n.predicate ∧ pylower n.predicate = n.predicate ∧
        pycollapse n.predicate = n.predicate) ∧
      (pystrip n.object = n.object ∧ pylower n.object = n.object) := by
  refine ⟨rfl, fun t n h => ?_⟩
  obtain ⟨⟨_, hs1, hs2⟩, ⟨_, hp1, hp2, hp3⟩, ⟨_, ho1, ho2⟩⟩ := normalize_triple_canon h
  exact ⟨⟨hs1, hs2⟩, ⟨hp1, hp2, hp3⟩, ⟨ho1, ho2⟩⟩

/-- C5 witness: the canonicity part applied to the example triple. -/
theorem C5_witness :
    pystrip ("discovered".toList) = "discovered".toList :=
  ((C5_theorem.2 marieTriple
    ⟨"marie  curie".toList, "discovered".toList, "radium".toList, unknownChunk⟩
    rfl).2.1).1


/-! ## Claim C6 -/

/-- C6 counterexample: an LLM response whose top level parses to a list can
still fail the chunk: a candidate whose `subject` is the whitespace-only
string `" "` is kept by the parser (it is a dict with string fields) but
rejected by `validate_data`, so `extract_from_chunk` returns
`success = false`. -/
theorem C6_counterexample :
    (parseTriples (Json.arr [Json.obj [("subject", Json.str [' ']),
        ("predicate", Json.str ['p']), ("object", Json.str ['o'])]]) 1).1 = true ∧
    (extract_from_chunk (parseTriples (Json.arr [Json.obj [("subject", Json.str [' ']),
        ("predicate", Json.str ['p']), ("object", Json.str ['o'])]]) 1)).1 = false :=
  ⟨rfl, rfl⟩

/-- C6 (amended): the parser succeeds exactly on an acceptable top-level
structure, discarding individual candidates of invalid shape without failing
the chunk (every kept candidate is a dict with string fields); but
`extract_from_chunk` then returns `success = true` iff additionally every
kept candidate has non-empty `subject`, `predicate` and `object` after
stripping — a kept candidate with a whitespace-only field fails the whole
chunk. -/
theorem C6_theorem (parsed : Json) (cn : Int) :
    ((parseTriples parsed cn).1 = structureOk parsed) ∧
    (∀ t ∈ (parseTriples parsed cn).2.1, isTripleShaped t = true) ∧
    ((extract_from_chunk (parseTriples parsed cn)).1 = true ↔
      ((parseTriples parsed cn).1 = true ∧
       ∀ t ∈ (parseTriples parsed cn).2.1, hasNonemptyFields t = true)) := by
  refine ⟨parseTriples_success parsed cn, parseTriples_kept_shaped parsed cn, ?_⟩
  have hshaped := parseTriples_kept_shaped parsed cn
  rcases hp : parseTriples parsed cn with ⟨succ, data, err⟩
  rw [hp] at hshaped
  cases succ with
  | false =>
    constructor
    · intro hx
      exact absurd hx (by simp [extract_from_chunk])
    · rintro ⟨h1, _⟩
      exact absurd h1 (by simp)
  | true =>
    have hiff : validate_data data = true ↔ ∀ t ∈ data, hasNonemptyFields t = true := by
      unfold validate_data
      rw [List.all_eq_true]
      constructor
      · intro hall t ht
        rw [← validItem_eq_of_shaped (hshaped t ht)]
        exact hall t ht
      · intro hall t ht
        rw [validItem_eq_of_shaped (hshaped t ht)]
        exact hall t ht
    constructor
    · intro hx
      refine ⟨rfl, ?_⟩
      apply hiff.mp
      by_contra hv
      have hev : extract_from_chunk (true, data, err) =
          (false, [], some "Invalid triple data") := by
        show (if validate_data data then ((true, data, none) :
            Bool × List Json × Option String)
          else (false, [], some "Invalid triple data")) = _
        rw [if_neg hv]
      rw [hev] at hx
      exact absurd hx (by simp)
    · rintro ⟨_, hall⟩
      have hv := hiff.mpr hall
      have hev : extract_from_chunk (true, data, err) = (true, data, none) := by
        show (if validate_data data then ((true, data, none) :
            Bool × List Json × Option String)
          else (false, [], some "Invalid triple data")) = _
        rw [if_pos hv]
      rw [hev]

/-- C6 witness: the success criterion applied to the empty-list response. -/
theorem C6_witness :
    (extract_from_chunk (parseTriples (Json.arr []) 2)).1 = true :=
  (C6_theorem (Json.arr []) 2).2.2.mpr
    ⟨rfl, fun t ht => absurd (show t ∈ ([] : List Json) from ht) (by simp)⟩

/-! ## Claim C7 -/

/-- C7 counterexample: an individual candidate item discarded by the response
parser leaves no trace.  Two responses — one with an extra invalid candidate
(`7`) — produce identical parser output and hence an identical final result;
the discarded item is reflected neither in `failed_chunks` nor in any
statistics counter. -/
theorem C7_counterexample :
    parseTriples (Json.arr [Json.obj [("subject", Json.str ['a']),
        ("predicate", Json.str ['b']), ("object", Json.str ['o'])], Json.num 7]) 1 =
      parseTriples (Json.arr [Json.obj [("subject", Json.str ['a']),
        ("predicate", Json.str ['b']), ("object", Json.str ['o'])]]) 1 ∧
    Json.arr [Json.obj [("subject", Json.str ['a']),
        ("predicate", Json.str ['b']), ("object", Json.str ['o'])], Json.num 7] ≠
      Json.arr [Json.obj [("subject", Json.str ['a']),
        ("predicate", Json.str ['b']), ("object", Json.str ['o'])]] ∧
    process_results [(parseTriples (Json.arr [Json.obj [("subject", Json.str ['a']),
        ("predicate", Json.str ['b']), ("object", Json.str ['o'])], Json.num 7]) 1).2.1] [] =
      process_results [(parseTriples (Json.arr [Json.obj [("subject", Json.str ['a']),
        ("predicate", Json.str ['b']), ("object", Json.str ['o'])]]) 1).2.1] [] := by
  refine ⟨rfl, ?_, rfl⟩
  intro h
  simp only [Json.arr.injEq] at h
  have := congrArg List.length h
  simp at this

/-- C7 (amended): discarded chunks are attributable — `process_results`
returns the input `failed_chunks` unchanged (plus a synthetic entry on merge
failure, per C3) — and every flattened triple that does not survive the merge
is counted by `duplicates_removed = total_triples − unique_triples`; but
candidate items discarded by the response parser for invalid shape are not
reflected in the result (see the counterexample). -/
theorem C7_theorem (all : List (List Json)) (failed : List FailedChunk)
    (ys : List NormTriple) (h : deduplicate_triples all.flatten = .ok ys) :
    (process_results all failed).failed_chunks = failed ∧
    (process_results all failed).triples = ys ∧
    (process_results all failed).statistics.duplicates_removed =
      (all.flatten.length : Int) - (ys.length : Int) ∧
    ys.length ≤ all.flatten.length := by
  rw [process_results_ok h]
  refine ⟨rfl, rfl, rfl, ?_⟩
  obtain ⟨ns, hna, rfl⟩ := dedup_ok_inv h
  exact le_trans (firstOccurAux_length_le []) (normAll_length_le hna)

/-- C7 witness: failed-chunk records pass through the merge untouched. -/
theorem C7_witness :
    (process_results [[]] [⟨some 1, "LLM error"⟩]).failed_chunks =
      [⟨some 1, "LLM error"⟩] :=
  (C7_theorem [[]] [⟨some 1, "LLM error"⟩] [] rfl).1

/-! ## Claim C8 -/

/-- C8: for every merge over chunk batches that passed `validate_data` (the
only batches an orchestrated run feeds to `process_results`), the reported
statistics satisfy `unique_triples ≤ total_triples` and
`duplicates_removed = total_triples − unique_triples`, with `total_triples`
the count of all per-chunk extracted triples before merge and
`unique_triples` the length of the final deduplicated output. -/
theorem C8_theorem (all : List (List Json)) (failed : List FailedChunk)
    (hv : ∀ l ∈ all, validate_data l = true) :
    (process_results all failed).statistics.unique_triples ≤
      (process_results all failed).statistics.total_triples ∧
    (process_results all failed).statistics.duplicates_removed =
      ((process_results all failed).statistics.total_triples : Int) -
        ((process_results all failed).statistics.unique_triples : Int) ∧
    (process_results all failed).statistics.total_triples = all.flatten.length ∧
    (process_results all failed).statistics.unique_triples =
      (process_results all failed).triples.length := by
  have hvall : ∀ t ∈ all.flatten, validItem t = true := by
    intro t ht
    obtain ⟨l, hl, htl⟩ := List.mem_flatten.mp ht
    have hl2 := hv l hl
    unfold validate_data at hl2
    exact List.all_eq_true.mp hl2 t htl
  obtain ⟨ns, hns⟩ := normAll_of_valid hvall
  have hded : deduplicate_triples all.flatten = .ok (firstOccurSpec ns) := by
    rw [deduplicate_triples_eq, hns]
  rw [process_results_ok hded]
  have hle : (firstOccurSpec ns).length ≤ all.flatten.length :=
    le_trans (firstOccurAux_length_le []) (normAll_length_le hns)
  exact ⟨hle, rfl, rfl, rfl⟩

/-- C8 witness: the statistics invariant on a one-chunk run with one valid
triple. -/
theorem C8_witness :
    (process_results [[Json.obj [("subject", Json.str ['a']),
        ("predicate", Json.str ['b']), ("object", Json.str ['o'])]]]
      []).statistics.unique_triples ≤
    (process_results [[Json.obj [("subject", Json.str ['a']),
        ("predicate", Json.str ['b']), ("object", Json.str ['o'])]]]
      []).statistics.total_triples :=
  (C8_theorem [[Json.obj [("subject", Json.str ['a']),
      ("predicate", Json.str ['b']), ("object", Json.str ['o'])]]] []
    (fun l hl => by rw [List.mem_singleton.mp hl]; rfl)).1


/-! ## Claim C9 -/

theorem processDoc_eq {C G R : Type} (ont : C) (validate : JDoc C G R → Bool)
    (normalize : JDoc C G R → Option (JDoc C G R)) (d : JDoc C G R) :
    processDoc ont validate normalize d =
      ((if validate (fix_llm_context ont d) then normalize (fix_llm_context ont d)
        else none),
       [fix_llm_context ont d],
       if validate (fix_llm_context ont d) then [fix_llm_context ont d] else []) := by
  unfold processDoc
  dsimp only
  by_cases hv : validate (fix_llm_context ont d) = true
  · rw [if_pos hv, if_pos hv, if_pos hv]
    cases normalize (fix_llm_context ont d) with
    | some n => rfl
    | none => rfl
  · rw [if_neg hv, if_neg hv, if_neg hv]

theorem fix_llm_context_context {C G R : Type} (ont : C) (d : JDoc C G R) :
    (fix_llm_context ont d).context = some ont := rfl

/-- C9: whenever the JSON-LD extractor processes a successful LLM response
containing `@graph` — directly as a dict, or after one JSON parse of a string
response — it overwrites any LLM-supplied `@context` with the ontology
context before validation and normalization: every argument ever passed to
validation or normalization carries the ontology context, and on the
`@graph`-bearing paths the computation is exactly fix-context → validate →
normalize. -/
theorem C9_theorem (C G R : Type) (ont : C) (validate : JDoc C G R → Bool)
    (normalize : JDoc C G R → Option (JDoc C G R))
    (parse : List Char → ParsedStr C G R) (data : LLMData C G R) :
    (∀ v ∈ (process_extracted_data ont validate normalize parse data).2.1,
      v.context = some ont) ∧
    (∀ v ∈ (process_extracted_data ont validate normalize parse data).2.2,
      v.context = some ont) ∧
    (∀ d, data = .dict d → d.graph.isSome = true →
      process_extracted_data ont validate normalize parse data =
        ((if validate (fix_llm_context ont d) then normalize (fix_llm_context ont d)
          else none),
         [fix_llm_context ont d],
         if validate (fix_llm_context ont d) then [fix_llm_context ont d] else [])) ∧
    (∀ s d, data = .str s → parse s = .okDict d → d.graph.isSome = true →
      process_extracted_data ont validate normalize parse data =
        ((if validate (fix_llm_context ont d) then normalize (fix_llm_context ont d)
          else none),
         [fix_llm_context ont d],
         if validate (fix_llm_context ont d) then [fix_llm_context ont d] else [])) := by
  have key : ∀ d : JDoc C G R,
      (∀ v ∈ (processDoc ont validate normalize d).2.1, v.context = some ont) ∧
      (∀ v ∈ (processDoc ont validate normalize d).2.2, v.context = some ont) := by
    intro d
    unfold processDoc
    dsimp only
    by_cases hv : validate (fix_llm_context ont d) = true
    · rw [if_pos hv]
      cases hn : normalize (fix_llm_context ont d) with
      | some n =>
        constructor
        · intro v hv2
          rw [List.mem_singleton.mp hv2]
          rfl
        · intro v hv2
          rw [List.mem_singleton.mp hv2]
          rfl
      | none =>
        constructor
        · intro v hv2
          rw [List.mem_singleton.mp hv2]
          rfl
        · intro v hv2
          rw [List.mem_singleton.mp hv2]
          rfl
    · rw [if_neg hv]
      constructor
      · intro v hv2
        rw [List.mem_singleton.mp hv2]
        rfl
      · intro v hv2
        simp at hv2
  refine ⟨?_, ?_, ?_, ?_⟩
  · intro v hv
    cases data with
    | dict d =>
      simp only [process_extracted_data] at hv
      by_cases hg : d.graph.isSome = true
      · rw [if_pos hg] at hv
        exact (key d).1 v hv
      · rw [if_neg hg] at hv
        simp at hv
    | str s =>
      simp only [process_extracted_data] at hv
      cases hps : parse s with
      | okDict d =>
        rw [hps] at hv
        replace hv : v ∈ ((if d.graph.isSome then processDoc ont validate normalize d
            else (none, [], [])) :
            Option (JDoc C G R) × List (JDoc C G R) × List (JDoc C G R)).2.1 := hv
        by_cases hg : d.graph.isSome = true
        · rw [if_pos hg] at hv
          exact (key d).1 v hv
        · rw [if_neg hg] at hv
          simp at hv
      | okOther => rw [hps] at hv; simp at hv
      | decodeErr => rw [hps] at hv; simp at hv
    | other => simp [process_extracted_data] at hv
  · intro v hv
    cases data with
    | dict d =>
      simp only [process_extracted_data] at hv
      by_cases hg : d.graph.isSome = true
      · rw [if_pos hg] at hv
        exact (key d).2 v hv
      · rw [if_neg hg] at hv
        simp at hv
    | str s =>
      simp only [process_extracted_data] at hv
      cases hps : parse s with
      | okDict d =>
        rw [hps] at hv
        replace hv : v ∈ ((if d.graph.isSome then processDoc ont validate normalize d
            else (none, [], [])) :
            Option (JDoc C G R) × List (JDoc C G R) × List (JDoc C G R)).2.2 := hv
        by_cases hg : d.graph.isSome = true
        · rw [if_pos hg] at hv
          exact (key d).2 v hv
        · rw [if_neg hg] at hv
          simp at hv
      | okOther => rw [hps] at hv; simp at hv
      | decodeErr => rw [hps] at hv; simp at hv
    | other => simp [process_extracted_data] at hv
  · rintro d rfl hg
    show (if d.graph.isSome then processDoc ont validate normalize d
      else (none, [], [])) = _
    rw [if_pos hg, processDoc_eq]
  · rintro s d rfl hps hg
    show (match parse s with
      | .okDict d =>
        if d.graph.isSome then processDoc ont validate normalize d
        else (none, [], [])
      | _ => (none, [], [])) = _
    rw [hps]
    show (if d.graph.isSome then processDoc ont validate normalize d
      else (none, [], [])) = _
    rw [if_pos hg, processDoc_eq]

/-- C9 witness: a dict response with a hallucinated context `7` is validated
and normalized with the ontology context `5` instead. -/
theorem C9_witness :
    process_extracted_data (5 : Nat) (fun _ => true) (fun d => some d)
        (fun _ => ParsedStr.decodeErr) (LLMData.dict ⟨some 7, some 3, (0 : Nat)⟩) =
      (some ⟨some 5, some 3, 0⟩, [⟨some 5, some 3, 0⟩], [⟨some 5, some 3, 0⟩]) := by
  have h := (C9_theorem Nat Nat Nat 5 (fun _ => true) (fun d => some d)
    (fun _ => ParsedStr.decodeErr) (LLMData.dict ⟨some 7, some 3, 0⟩)).2.2.1
    ⟨some 7, some 3, 0⟩ rfl rfl
  rw [h]
  rfl

/-! ## Claim C10 -/

/-- C10: every triple output by `deduplicate_triples` has non-empty, trimmed,
lowercased subject, predicate and object (the predicate additionally with
internal whitespace collapsed), the output `(subject, predicate, object)`
keys are pairwise distinct, and the output consists of exactly the first
occurrence of each key, in input order (equality with the reference
first-occurrence filter over the normalized sequence). -/
theorem C10_theorem (X : List Json) (ys : List NormTriple)
    (h : deduplicate_triples X = .ok ys) :
    (∀ n ∈ ys,
      (n.subject ≠ [] ∧ pystrip n.subject = n.subject ∧
        pylower n.subject = n.subject) ∧
      (n.predicate ≠ [] ∧ pystrip n.predicate = n.predicate ∧
        pylower n.predicate = n.predicate ∧ pycollapse n.predicate = n.predicate) ∧
      (n.object ≠ [] ∧ pystrip n.object = n.object ∧
        pylower n.object = n.object)) ∧
    ((ys.map tkey).Nodup) ∧
    (∃ ns : List NormTriple, normAll X = .ok ns ∧ ys = firstOccurSpec ns) := by
  obtain ⟨ns, hna, rfl⟩ := dedup_ok_inv h
  refine ⟨?_, firstOccurAux_key_nodup [], ns, hna, rfl⟩
  intro n hn
  obtain ⟨t, _, hnt⟩ := normAll_mem hna n (firstOccurAux_subset [] n hn)
  exact normalize_triple_canon hnt

/-- C10 witness: the invariant evaluated on the one-triple Marie Curie run. -/
theorem C10_witness :
    ("marie  curie".toList : List Char) ≠ [] :=
  (((C10_theorem [marieTriple]
      [⟨"marie  curie".toList, "discovered".toList, "radium".toList, unknownChunk⟩]
      rfl).1
    ⟨"marie  curie".toList, "discovered".toList, "radium".toList, unknownChunk⟩
    (by simp)).1).1

end KG
